import Mathlib

/-!
Shallow embedding of the sturdyc sharded cache (`src/shard.go`, `src/cache.go`).

Modelling conventions:
* `time.Time` and `time.Duration` are modelled as `Int` (nanoseconds).
  `t1.After(t2)` is `t2 < t1`.  The one place where 64-bit overflow of a
  duration computation matters (`retryBaseDelay * (1 << numOfRefreshRetries)`
  in `shard.get`) is modelled explicitly with `wrap64`.
* Go maps `map[string]V` are modelled as association lists with at most one
  binding per key: insertion (`minsert`) removes any previous binding.
  Reading a missing key yields the zero value in Go; this is modelled with
  `Option` plus `getD` at the call sites that rely on the zero value.
* Panics are modelled with `Except String`.
* The generic zero value returned by `shard.get` on a miss is modelled as
  `none` (the value slot of the result is an `Option T`).
-/

/-- Lookup in a Go-map modelled as an association list (first binding wins). -/
def mfind {V : Type} : List (String × V) → String → Option V
  | [], _ => none
  | (k, v) :: rest, q => if k = q then some v else mfind rest q

/-- `delete(m, k)` on a Go map. -/
def merase {V : Type} : List (String × V) → String → List (String × V)
  | [], _ => []
  | p :: rest, k => if p.1 = k then merase rest k else p :: merase rest k

/-- `m[k] = v` on a Go map: replaces any previous binding for `k`. -/
def minsert {V : Type} (m : List (String × V)) (k : String) (v : V) : List (String × V) :=
  (k, v) :: merase m k

theorem mfind_merase {V : Type} (m : List (String × V)) (k q : String) :
    mfind (merase m k) q = if q = k then none else mfind m q := by
  induction m with
  | nil =>
    simp only [merase, mfind]
    split <;> rfl
  | cons p rest ih =>
    obtain ⟨k', v⟩ := p
    have e1 : merase ((k', v) :: rest) k
        = if k' = k then merase rest k else (k', v) :: merase rest k := rfl
    have e2 : ∀ (m : List (String × V)) (a : String) (w : V) (r : String),
        mfind ((a, w) :: m) r = if a = r then some w else mfind m r := fun _ _ _ _ => rfl
    rw [e1]
    by_cases hk : k' = k
    · rw [if_pos hk, ih]
      by_cases hq : q = k
      · rw [if_pos hq, if_pos hq]
      · rw [if_neg hq, if_neg hq, e2]
        rw [if_neg (fun h : k' = q => hq (h.symm.trans hk))]
    · rw [if_neg hk, e2]
      by_cases h2 : k' = q
      · rw [if_pos h2, if_neg (fun h : q = k => hk (h2.trans h)), e2, if_pos h2]
      · rw [if_neg h2, ih]
        by_cases hq : q = k
        · rw [if_pos hq, if_pos hq]
        · rw [if_neg hq, if_neg hq, e2, if_neg h2]

theorem mfind_minsert {V : Type} (m : List (String × V)) (k q : String) (v : V) :
    mfind (minsert m k v) q = if k = q then some v else mfind m q := by
  simp only [minsert, mfind]
  by_cases h : k = q
  · rw [if_pos h, if_pos h]
  · rw [if_neg h, if_neg h, mfind_merase, if_neg (fun hh : q = k => h hh.symm)]

theorem mfind_eq_none_of_not_mem {V : Type} (m : List (String × V)) (q : String)
    (h : ∀ p ∈ m, p.1 ≠ q) : mfind m q = none := by
  induction m with
  | nil => rfl
  | cons p rest ih =>
    simp only [mfind]
    rw [if_neg (h p (List.mem_cons_self p rest))]
    exact ih (fun p hp => h p (List.mem_cons_of_mem _ hp))

theorem mem_of_mfind_eq_some {V : Type} (m : List (String × V)) (q : String) (v : V)
    (h : mfind m q = some v) : (q, v) ∈ m := by
  induction m with
  | nil => exact absurd h (by simp [mfind])
  | cons p rest ih =>
    obtain ⟨k', v'⟩ := p
    simp only [mfind] at h
    by_cases heq : k' = q
    · rw [if_pos heq] at h
      subst heq
      cases h
      exact List.mem_cons_self _ _
    · rw [if_neg heq] at h
      exact List.mem_cons_of_mem _ (ih h)

/-- Signed 64-bit wraparound, the semantics of Go `int64`/`time.Duration`
    arithmetic. -/
def wrap64 (z : Int) : Int :=
  (z + 2 ^ 63) % 2 ^ 64 - 2 ^ 63

theorem wrap64_eq_self (z : Int) (h1 : -(2 ^ 63) ≤ z) (h2 : z < 2 ^ 63) :
    wrap64 z = z := by
  unfold wrap64
  have hlo : 0 ≤ z + 2 ^ 63 := by linarith
  have hhi : z + 2 ^ 63 < 2 ^ 64 := by
    have : (2 : Int) ^ 64 = 2 ^ 63 + 2 ^ 63 := by norm_num
    linarith
  rw [Int.emod_eq_of_lt hlo hhi]
  ring

/-- A single cache entry (`entry[T]` in `src/shard.go`). -/
structure Entry (T : Type) where
  key : String
  value : T
  expiresAt : Int
  refreshAt : Int
  numOfRefreshRetries : Nat
  isMissingRecord : Bool
  deriving Repr, DecidableEq

/-- The four results of `shard.get`: `(val, exists, markedAsMissing, refresh)`.
    `val = none` stands for the Go zero value returned on a miss. -/
structure GetRes (T : Type) where
  val : Option T
  found : Bool
  markedAsMissing : Bool
  refresh : Bool
  deriving Repr, DecidableEq

/-- A cache shard (`shard[T]` in `src/shard.go`), including the `Config`
    fields the shard operations read. -/
structure Shard (T : Type) where
  capacity : Nat
  ttl : Int
  entries : List (String × Entry T)
  entryKeysByAlias : List (String × String)
  aliasesByEntryKey : List (String × List String)
  evictionPercentage : Int
  refreshInBackground : Bool
  minRefreshTime : Int
  maxRefreshTime : Int
  retryBaseDelay : Int
  deriving Repr, DecidableEq

/-- `shard.unsafeDelete` (src/shard.go:88-99): removes the entry, its alias
    bindings and its alias list. -/
def Shard.unsafeDelete {T : Type} (s : Shard T) (key : String) : Shard T :=
  match mfind s.entries key with
  | none => s
  | some _ =>
    let aliases := (mfind s.aliasesByEntryKey key).getD []
    { s with
      entryKeysByAlias := aliases.foldl (fun m a => merase m a) s.entryKeysByAlias
      aliasesByEntryKey := merase s.aliasesByEntryKey key
      entries := merase s.entries key }

/-- `shard.unsafeGetByKeyOrAlias` (src/shard.go:103-117).  Also returns the
    primary key under which the entry is stored (standing for the pointer
    identity of the Go `*entry[T]`). -/
def Shard.unsafeGetByKeyOrAlias {T : Type} (s : Shard T) (keyOrAlias : String) :
    Option (String × Entry T) :=
  match mfind s.entries keyOrAlias with
  | some item => some (keyOrAlias, item)
  | none =>
    let entryKey := (mfind s.entryKeysByAlias keyOrAlias).getD ""
    if entryKey = "" then none
    else
      match mfind s.entries entryKey with
      | some item => some (entryKey, item)
      | none => none

/-- The re-check performed by `shard.get` after upgrading to the exclusive
    lock (src/shard.go:153-164).  `k` is the primary key under which `item`
    is stored; `now` is the clock reading under the exclusive lock. -/
def Shard.getRefreshRecheck {T : Type} (s : Shard T) (k : String) (item : Entry T)
    (now : Int) : Shard T × GetRes T :=
  if ¬ item.refreshAt < now then
    (s, ⟨some item.value, true, item.isMissingRecord, false⟩)
  else
    let nextRefresh := wrap64 (s.retryBaseDelay * wrap64 (2 ^ item.numOfRefreshRetries))
    let item2 : Entry T :=
      { item with
        refreshAt := now + nextRefresh
        numOfRefreshRetries := item.numOfRefreshRetries + 1 }
    ({ s with entries := minsert s.entries k item2 },
     ⟨some item.value, true, item.isMissingRecord, true⟩)

/-- `shard.get` (src/shard.go:131-169).  The successive `clock.Now()` calls
    are merged into the single reading `now`. -/
def Shard.get {T : Type} (s : Shard T) (key : String) (now : Int) :
    Shard T × GetRes T :=
  match s.unsafeGetByKeyOrAlias key with
  | none => (s, ⟨none, false, false, false⟩)
  | some (k, item) =>
    if item.expiresAt < now then (s, ⟨none, false, false, false⟩)
    else if s.refreshInBackground ∧ item.refreshAt < now then
      s.getRefreshRecheck k item now
    else
      (s, ⟨some item.value, true, item.isMissingRecord, false⟩)

/-- `shard.evictExpired` (src/shard.go:53-65): deletes every expired entry
    directly from `entries` (it does not call `unsafeDelete`). -/
def Shard.evictExpired {T : Type} (s : Shard T) (now : Int) : Shard T :=
  { s with entries := s.entries.filter (fun p => !(decide (p.2.expiresAt < now))) }

/-- Insertion into a `≤`-sorted list, used by the model of `FindCutoff`. -/
def insertSorted (x : Int) : List Int → List Int
  | [] => [x]
  | y :: ys => if x ≤ y then x :: y :: ys else y :: insertSorted x ys

/-- Insertion sort, used by the model of `FindCutoff`. -/
def sortTimes : List Int → List Int
  | [] => []
  | x :: xs => insertSorted x (sortTimes xs)

/-- Modelled from the spec: `FindCutoff` is called by `forceEvict` but its
    definition is not among the given source files.  The spec says it
    "computes a cutoff timestamp such that evicting all entries with
    `expiresAt` before the cutoff removes approximately
    `evictionPercentage`% of the shard — i.e., a selection/quantile
    computation over expiration times".  It is modelled as the
    `⌊pct·n/100⌋`-th smallest expiration time (clamped to the largest);
    `pct` is the percentage, standing for the `float64` ratio `pct/100`
    passed in the source. -/
def FindCutoff (times : List Int) (pct : Int) : Int :=
  if times.length = 0 then 0
  else (sortTimes times).getD (min (pct * (times.length : Int) / 100).toNat
    (times.length - 1)) 0

/-- `shard.forceEvict` (src/shard.go:69-85): deletes (via `unsafeDelete`)
    every entry whose expiration time lies strictly before the cutoff. -/
def Shard.forceEvict {T : Type} (s : Shard T) : Shard T :=
  ((s.entries.filter (fun p => decide (p.2.expiresAt <
      FindCutoff (s.entries.map (fun r => r.2.expiresAt)) s.evictionPercentage))).map
    (fun p => p.1)).foldl (fun t key => t.unsafeDelete key) s

/-- The state change of `shard.unsafeUpsert` once the alias-conflict check
    has passed (src/shard.go:223-233): temporarily remove any pre-existing
    entry under `key`, insert the new entry, bind every alias to `key` and
    record the alias list. -/
def upsertResult {T : Type} (s : Shard T) (newEntry : Entry T) (key : String)
    (aliases : List String) : Shard T :=
  let s1 := if (mfind s.entries key).isSome then s.unsafeDelete key else s
  { s1 with
    entries := minsert s1.entries key newEntry
    entryKeysByAlias := aliases.foldl (fun m a => minsert m a key) s1.entryKeysByAlias
    aliasesByEntryKey := minsert s1.aliasesByEntryKey key aliases }

/-- `shard.unsafeUpsert` (src/shard.go:213-234).  The panic on an alias that
    is already bound to a different key is modelled as `Except.error`. -/
def Shard.unsafeUpsert {T : Type} (s : Shard T) (newEntry : Entry T) (key : String)
    (aliases : List String) : Except String (Shard T) :=
  if aliases.any (fun a =>
      match mfind s.entryKeysByAlias a with
      | some entryKey => entryKey != key
      | none => false) then
    Except.error "alias already exists on another key"
  else
    Except.ok (upsertResult s newEntry key aliases)

/-- The entry built by `shard.set` (src/shard.go:190-207): `expiresAt` is
    `now + ttl`; with refresh-ahead enabled, `refreshAt` is
    `now + minRefreshTime + padding`, where the random padding `pad`
    (`rand.Int64N(max-min)`) is only applied when the two refresh times
    differ; the Go zero `time.Time` is modelled as 0. -/
def mkSetEntry {T : Type} (s1 : Shard T) (key : String) (value : T)
    (isMissingRecord : Bool) (now pad : Int) : Entry T :=
  { key := key
    value := value
    expiresAt := now + s1.ttl
    refreshAt :=
      if s1.refreshInBackground then
        now + s1.minRefreshTime +
          (if s1.minRefreshTime ≠ s1.maxRefreshTime then pad else 0)
      else 0
    numOfRefreshRetries := 0
    isMissingRecord := isMissingRecord }

/-- `shard.set` (src/shard.go:173-211).  `now` is the clock reading; `pad`
    stands for the random refresh padding.  Go computes
    `evict := len(s.entries) >= s.capacity` once up front; the pure
    condition is inlined here. -/
def Shard.set {T : Type} (s : Shard T) (key : String) (value : T)
    (isMissingRecord : Bool) (aliases : List String) (now pad : Int) :
    Except String (Shard T × Bool) :=
  if s.evictionPercentage < 1 ∧ s.capacity ≤ s.entries.length then Except.ok (s, false)
  else
    let s1 := if s.capacity ≤ s.entries.length then s.forceEvict else s
    (s1.unsafeUpsert (mkSetEntry s1 key value isMissingRecord now pad) key aliases).map
      (fun s2 => (s2, decide (s.capacity ≤ s.entries.length)))

/-- `shard.delete` (src/shard.go:237-241). -/
def Shard.delete {T : Type} (s : Shard T) (key : String) : Shard T :=
  s.unsafeDelete key

/-- The cache client (`Client[T]` in `src/cache.go`): the shard list, the
    global alias→shard map `shardIndexByAlias`, and the xxhash function
    modelled as an abstract `hash` parameter. -/
structure Client (T : Type) where
  shards : List (Shard T)
  shardIndexByAlias : List (String × Nat)
  hash : String → Nat

/-- `Client.findShardIndexByAlias` (src/cache.go:159-165): `-1` when the key
    is not a known alias. -/
def Client.findShardIndexByAlias {T : Type} (c : Client T) (key : String) : Int :=
  match mfind c.shardIndexByAlias key with
  | some i => (i : Int)
  | none => -1

/-- `Client.getShardIndex` (src/cache.go:140-151): alias map first, then
    `xxhash.Sum64String(key) % numShards`. -/
def Client.getShardIndex {T : Type} (c : Client T) (key : String) : Nat :=
  match mfind c.shardIndexByAlias key with
  | some i => i
  | none => c.hash key % c.shards.length

/-- `Client.set_aliasGuard` (src/cache.go:263-280): panics (modelled as
    `Except.error`) when an alias is registered to a different shard, or is
    registered to this shard while the shard's `entryKeysByAlias` binds it
    to a different key (the Go zero value `""` is used for a missing shard
    binding); registers unknown aliases. -/
def Client.set_aliasGuard {T : Type} (c : Client T) (key : String) :
    List String → Nat → Except String (Client T)
  | [], _ => Except.ok c
  | a :: rest, shardIndex =>
    match mfind c.shardIndexByAlias a with
    | some aliasShardIndex =>
      if aliasShardIndex ≠ shardIndex then
        Except.error "alias already exists in a different shard"
      else if ((c.shards[shardIndex]?.map (fun sh =>
          (mfind sh.entryKeysByAlias a).getD "")).getD "") ≠ key then
        Except.error "alias already exists for a different key"
      else Client.set_aliasGuard c key rest shardIndex
    | none =>
      Client.set_aliasGuard
        { c with shardIndexByAlias := minsert c.shardIndexByAlias a shardIndex }
        key rest shardIndex

/-- `Client.Set` (src/cache.go:254-260), after the `ISturdyCItem` interface
    has resolved the primary key and aliases (`set_applyCacheItemInterface`);
    `key` and `aliases` are therefore parameters here.  An out-of-range
    shard index (impossible for clients built by `New`) is modelled as an
    error, matching the Go slice-index panic. -/
def Client.clientSet {T : Type} (c : Client T) (key : String) (value : T)
    (aliases : List String) (now pad : Int) : Except String (Client T × Bool) :=
  match c.set_aliasGuard key aliases (c.getShardIndex key) with
  | Except.error e => Except.error e
  | Except.ok c1 =>
    match c1.shards[(c.getShardIndex key)]? with
    | none => Except.error "shard index out of range"
    | some sh =>
      match sh.set key value false aliases now pad with
      | Except.error e => Except.error e
      | Except.ok (sh2, evicted) =>
        Except.ok ({ c1 with shards := c1.shards.set (c.getShardIndex key) sh2 },
          evicted)

/-- `Client.Delete` (src/cache.go:378-381). -/
def Client.clientDelete {T : Type} (c : Client T) (key : String) : Client T :=
  match c.shards[(c.getShardIndex key)]? with
  | none => c
  | some sh =>
    { c with shards := c.shards.set (c.getShardIndex key) (sh.delete key) }

/-- One tick of the background sweep (`performContinuousEvictions`,
    src/cache.go:120-129): `evictExpired` on a single shard. -/
def Client.evictTick {T : Type} (c : Client T) (i : Nat) (now : Int) : Client T :=
  match c.shards[i]? with
  | none => c
  | some sh => { c with shards := c.shards.set i (sh.evictExpired now) }

/-! ### Further association-list lemmas -/

theorem forall_ne_of_mfind_eq_none {V : Type} (m : List (String × V)) (q : String)
    (h : mfind m q = none) : ∀ p ∈ m, p.1 ≠ q := by
  induction m with
  | nil => intro p hp; cases hp
  | cons p rest ih =>
    obtain ⟨k', v⟩ := p
    simp only [mfind] at h
    by_cases hk : k' = q
    · rw [if_pos hk] at h; cases h
    · rw [if_neg hk] at h
      intro r hr
      rcases List.mem_cons.mp hr with h1 | h1
      · subst h1; exact hk
      · exact ih h r h1

theorem merase_eq_self_of_mfind_eq_none {V : Type} (m : List (String × V)) (q : String)
    (h : mfind m q = none) : merase m q = m := by
  induction m with
  | nil => rfl
  | cons p rest ih =>
    obtain ⟨k', v⟩ := p
    simp only [mfind] at h
    by_cases hk : k' = q
    · rw [if_pos hk] at h; cases h
    · rw [if_neg hk] at h
      simp only [merase, if_neg hk]
      rw [ih h]

theorem mfind_foldl_minsert {V : Type} (l : List String) (m : List (String × V))
    (v : V) (q : String) :
    mfind (l.foldl (fun t a => minsert t a v) m) q =
      if q ∈ l then some v else mfind m q := by
  induction l generalizing m with
  | nil => simp
  | cons a rest ih =>
    simp only [List.foldl_cons]
    rw [ih]
    by_cases hq : q ∈ rest
    · rw [if_pos hq, if_pos (List.mem_cons_of_mem a hq)]
    · rw [if_neg hq, mfind_minsert]
      by_cases ha : a = q
      · rw [if_pos ha, if_pos (List.mem_cons.mpr (Or.inl ha.symm))]
      · rw [if_neg ha]
        rw [if_neg (fun h => (List.mem_cons.mp h).elim (fun h1 => ha h1.symm) hq)]

theorem mfind_foldl_merase {V : Type} (l : List String) (m : List (String × V))
    (q : String) :
    mfind (l.foldl (fun t a => merase t a) m) q =
      if q ∈ l then none else mfind m q := by
  induction l generalizing m with
  | nil => simp
  | cons a rest ih =>
    simp only [List.foldl_cons]
    rw [ih]
    by_cases hq : q ∈ rest
    · rw [if_pos hq, if_pos (List.mem_cons_of_mem a hq)]
    · rw [if_neg hq, mfind_merase]
      by_cases ha : q = a
      · rw [if_pos ha, if_pos (List.mem_cons.mpr (Or.inl ha))]
      · rw [if_neg ha]
        rw [if_neg (fun h => (List.mem_cons.mp h).elim ha hq)]

theorem merase_eq_filter {V : Type} (m : List (String × V)) (k : String) :
    merase m k = m.filter (fun p => !(decide (p.1 = k))) := by
  induction m with
  | nil => rfl
  | cons p rest ih =>
    obtain ⟨k', v⟩ := p
    by_cases hk : k' = k
    · simp [merase, hk, ih]
    · simp [merase, hk, ih]

/-- Number of bindings a Go-map model holds for `k` (1 or 0 in well-formed
    states; `minsert` forces it to 1 for the inserted key). -/
def keyCount {V : Type} (m : List (String × V)) (k : String) : Nat :=
  (m.filter (fun p => decide (p.1 = k))).length

theorem keyCount_minsert_self {V : Type} (m : List (String × V)) (k : String) (v : V) :
    keyCount (minsert m k v) k = 1 := by
  have hz : ∀ (m' : List (String × V)), keyCount (merase m' k) k = 0 := by
    intro m'
    induction m' with
    | nil => rfl
    | cons p rest ih =>
      obtain ⟨k', v'⟩ := p
      by_cases hk : k' = k
      · simpa [merase, hk] using ih
      · simpa [merase, keyCount, hk] using ih
  simp [minsert, keyCount]
  have := hz m
  simpa [keyCount] using this

/-! ### Alias-map invariants (spec section 3) -/

/-- The part of the alias-map invariant used throughout: every binding
    `alias → k` in `entryKeysByAlias` is listed in `aliasesByEntryKey[k]`
    and refers to a key that is live in `entries`. -/
def AliasSync {T : Type} (s : Shard T) : Prop :=
  (∀ a k, mfind s.entryKeysByAlias a = some k →
    a ∈ (mfind s.aliasesByEntryKey k).getD []) ∧
  (∀ a k, mfind s.entryKeysByAlias a = some k →
    (mfind s.entries k).isSome = true)

/-- The full alias-map invariant of the spec: the two alias maps are strict
    inverses of each other and every alias-map binding refers to a key that
    is still present in `entries`.  (That an alias maps to at most one key
    is inherent in the map model: `mfind` is a function.) -/
def AliasMapsConsistent {T : Type} (s : Shard T) : Prop :=
  AliasSync s ∧
  (∀ k l, mfind s.aliasesByEntryKey k = some l →
    ∀ a ∈ l, mfind s.entryKeysByAlias a = some k) ∧
  (∀ k, (mfind s.aliasesByEntryKey k).isSome = true →
    (mfind s.entries k).isSome = true)

/-- Decidable form of `AliasSync` (quantifies over the stored bindings). -/
abbrev AliasSyncChk {T : Type} (s : Shard T) : Prop :=
  (∀ p ∈ s.entryKeysByAlias, p.1 ∈ (mfind s.aliasesByEntryKey p.2).getD []) ∧
  (∀ p ∈ s.entryKeysByAlias, (mfind s.entries p.2).isSome = true)

/-- Decidable form of `AliasMapsConsistent`. -/
abbrev AliasMapsConsistentChk {T : Type} (s : Shard T) : Prop :=
  AliasSyncChk s ∧
  (∀ p ∈ s.aliasesByEntryKey, ∀ a ∈ p.2, mfind s.entryKeysByAlias a = some p.1) ∧
  (∀ p ∈ s.aliasesByEntryKey, (mfind s.entries p.1).isSome = true)

theorem aliasSync_of_chk {T : Type} (s : Shard T) (h : AliasSyncChk s) :
    AliasSync s := by
  refine ⟨fun a k hf => ?_, fun a k hf => ?_⟩
  · exact h.1 (a, k) (mem_of_mfind_eq_some _ _ _ hf)
  · exact h.2 (a, k) (mem_of_mfind_eq_some _ _ _ hf)

theorem aliasMapsConsistent_of_chk {T : Type} (s : Shard T)
    (h : AliasMapsConsistentChk s) : AliasMapsConsistent s := by
  refine ⟨aliasSync_of_chk s h.1, fun k l hf => ?_, fun k hf => ?_⟩
  · exact h.2.1 (k, l) (mem_of_mfind_eq_some _ _ _ hf)
  · obtain ⟨l, hl⟩ := Option.isSome_iff_exists.mp hf
    exact h.2.2 (k, l) (mem_of_mfind_eq_some _ _ _ hl)

/-! ### Shard-operation characterizations and invariant preservation -/

theorem unsafeDelete_eq_self {T : Type} (s : Shard T) (key : String)
    (hk : mfind s.entries key = none) : s.unsafeDelete key = s := by
  unfold Shard.unsafeDelete
  rw [hk]

theorem unsafeDelete_components {T : Type} (s : Shard T) (key : String) (e : Entry T)
    (hk : mfind s.entries key = some e) :
    (s.unsafeDelete key).entries = merase s.entries key ∧
    (s.unsafeDelete key).entryKeysByAlias =
      ((mfind s.aliasesByEntryKey key).getD []).foldl (fun m a => merase m a)
        s.entryKeysByAlias ∧
    (s.unsafeDelete key).aliasesByEntryKey = merase s.aliasesByEntryKey key := by
  unfold Shard.unsafeDelete
  rw [hk]
  exact ⟨rfl, rfl, rfl⟩

theorem unsafeDelete_entries_eq {T : Type} (s : Shard T) (key : String) :
    (s.unsafeDelete key).entries = merase s.entries key := by
  cases hk : mfind s.entries key with
  | none =>
    rw [unsafeDelete_eq_self s key hk, merase_eq_self_of_mfind_eq_none s.entries key hk]
  | some e => exact (unsafeDelete_components s key e hk).1

theorem unsafeDelete_mfind_entries {T : Type} (s : Shard T) (key q : String) :
    mfind (s.unsafeDelete key).entries q = if q = key then none else mfind s.entries q := by
  rw [unsafeDelete_entries_eq, mfind_merase]

theorem unsafeDelete_scalars {T : Type} (s : Shard T) (key : String) :
    (s.unsafeDelete key).capacity = s.capacity ∧
    (s.unsafeDelete key).ttl = s.ttl ∧
    (s.unsafeDelete key).evictionPercentage = s.evictionPercentage ∧
    (s.unsafeDelete key).refreshInBackground = s.refreshInBackground ∧
    (s.unsafeDelete key).minRefreshTime = s.minRefreshTime ∧
    (s.unsafeDelete key).maxRefreshTime = s.maxRefreshTime ∧
    (s.unsafeDelete key).retryBaseDelay = s.retryBaseDelay := by
  unfold Shard.unsafeDelete
  cases mfind s.entries key <;> exact ⟨rfl, rfl, rfl, rfl, rfl, rfl, rfl⟩

theorem foldl_unsafeDelete_scalars {T : Type} (keys : List String) (s : Shard T) :
    (keys.foldl (fun t k => t.unsafeDelete k) s).capacity = s.capacity ∧
    (keys.foldl (fun t k => t.unsafeDelete k) s).ttl = s.ttl ∧
    (keys.foldl (fun t k => t.unsafeDelete k) s).evictionPercentage =
      s.evictionPercentage ∧
    (keys.foldl (fun t k => t.unsafeDelete k) s).refreshInBackground =
      s.refreshInBackground ∧
    (keys.foldl (fun t k => t.unsafeDelete k) s).minRefreshTime = s.minRefreshTime ∧
    (keys.foldl (fun t k => t.unsafeDelete k) s).maxRefreshTime = s.maxRefreshTime ∧
    (keys.foldl (fun t k => t.unsafeDelete k) s).retryBaseDelay = s.retryBaseDelay := by
  induction keys generalizing s with
  | nil => exact ⟨rfl, rfl, rfl, rfl, rfl, rfl, rfl⟩
  | cons a rest ih =>
    obtain ⟨i1, i2, i3, i4, i5, i6, i7⟩ := ih (s.unsafeDelete a)
    obtain ⟨d1, d2, d3, d4, d5, d6, d7⟩ := unsafeDelete_scalars s a
    exact ⟨i1.trans d1, i2.trans d2, i3.trans d3, i4.trans d4, i5.trans d5,
      i6.trans d6, i7.trans d7⟩

theorem forceEvict_scalars {T : Type} (s : Shard T) :
    s.forceEvict.capacity = s.capacity ∧
    s.forceEvict.ttl = s.ttl ∧
    s.forceEvict.evictionPercentage = s.evictionPercentage ∧
    s.forceEvict.refreshInBackground = s.refreshInBackground ∧
    s.forceEvict.minRefreshTime = s.minRefreshTime ∧
    s.forceEvict.maxRefreshTime = s.maxRefreshTime ∧
    s.forceEvict.retryBaseDelay = s.retryBaseDelay :=
  foldl_unsafeDelete_scalars _ s

theorem aliasSync_unsafeDelete {T : Type} (s : Shard T) (key : String)
    (h : AliasSync s) : AliasSync (s.unsafeDelete key) := by
  cases hk : mfind s.entries key with
  | none => rw [unsafeDelete_eq_self s key hk]; exact h
  | some e =>
    obtain ⟨hent, hek, hae⟩ := unsafeDelete_components s key e hk
    constructor
    · intro a k hf
      rw [hek, mfind_foldl_merase] at hf
      split at hf
      · cases hf
      · rename_i ha
        have h1 := h.1 a k hf
        have hkk : ¬ k = key := fun hkey => ha (hkey ▸ h1)
        rw [hae, mfind_merase, if_neg hkk]
        exact h1
    · intro a k hf
      rw [hek, mfind_foldl_merase] at hf
      split at hf
      · cases hf
      · rename_i ha
        have h1 := h.1 a k hf
        have hkk : ¬ k = key := fun hkey => ha (hkey ▸ h1)
        rw [hent, mfind_merase, if_neg hkk]
        exact h.2 a k hf

theorem aliasSync_foldl_unsafeDelete {T : Type} (keys : List String) (s : Shard T)
    (h : AliasSync s) : AliasSync (keys.foldl (fun t k => t.unsafeDelete k) s) := by
  induction keys generalizing s with
  | nil => exact h
  | cons a rest ih => exact ih _ (aliasSync_unsafeDelete s a h)

theorem aliasSync_forceEvict {T : Type} (s : Shard T) (h : AliasSync s) :
    AliasSync s.forceEvict :=
  aliasSync_foldl_unsafeDelete _ s h

/-! ### Claim C1: alias-map invariant under mutating shard operations -/

/-- Entry for `shardC1`: already expired at time 1. -/
def entryC1 : Entry Int :=
  { key := "k"
    value := 7
    expiresAt := 0
    refreshAt := 0
    numOfRefreshRetries := 0
    isMissingRecord := false }

/-- A well-formed one-entry shard: entry `k` (already expired at time 1)
    with alias `a`. -/
def shardC1 : Shard Int :=
  { capacity := 10
    ttl := 10
    entries := [("k", entryC1)]
    entryKeysByAlias := [("a", "k")]
    aliasesByEntryKey := [("k", ["a"])]
    evictionPercentage := 20
    refreshInBackground := false
    minRefreshTime := 0
    maxRefreshTime := 0
    retryBaseDelay := 0 }

/-- C1.  The claimed invariant — the two alias maps stay strict inverses and
    every alias binding refers to a key still present in `entries` — is
    violated by `evictExpired`: starting from the consistent shard `shardC1`,
    `evictExpired` at time 1 removes the expired entry `"k"` from `entries`
    but leaves the binding `"a" ↦ "k"` in `entryKeysByAlias` (it deletes from
    `entries` directly instead of calling `unsafeDelete`), so the resulting
    state no longer satisfies the invariant. -/
theorem c1_evictExpired_breaks_alias_maps :
    AliasMapsConsistent shardC1 ∧
    mfind shardC1.entries "k" ≠ none ∧
    mfind (shardC1.evictExpired 1).entries "k" = none ∧
    mfind (shardC1.evictExpired 1).entryKeysByAlias "a" = some "k" ∧
    ¬ AliasMapsConsistent (shardC1.evictExpired 1) := by
  refine ⟨aliasMapsConsistent_of_chk _ (by decide), by decide, by decide, by decide, ?_⟩
  intro hc
  exact absurd (hc.1.2 "a" "k" (by decide)) (by decide)

/-! ### Claim C5: at capacity with eviction disabled, `set` rejects the write -/

/-- C5.  When the shard is at (or above) capacity and
    `evictionPercentage < 1`, `set` returns `evicted = false` and performs no
    state change at all: the resulting shard is the input shard itself. -/
theorem c5_saturated_set_rejects_write {T : Type} (s : Shard T) (key : String)
    (value : T) (isMissingRecord : Bool) (aliases : List String) (now pad : Int)
    (hcap : s.capacity ≤ s.entries.length) (hpct : s.evictionPercentage < 1) :
    s.set key value isMissingRecord aliases now pad = Except.ok (s, false) := by
  unfold Shard.set
  exact if_pos ⟨hpct, hcap⟩

/-- Entry for `shardC5`: live until time 100. -/
def entryC5 : Entry Int :=
  { key := "k0"
    value := 1
    expiresAt := 100
    refreshAt := 0
    numOfRefreshRetries := 0
    isMissingRecord := false }

/-- Concrete saturated shard for the C5 witness: capacity 1, one live entry,
    eviction disabled. -/
def shardC5 : Shard Int :=
  { capacity := 1
    ttl := 100
    entries := [("k0", entryC5)]
    entryKeysByAlias := []
    aliasesByEntryKey := []
    evictionPercentage := 0
    refreshInBackground := false
    minRefreshTime := 0
    maxRefreshTime := 0
    retryBaseDelay := 0 }

/-- Witness for C5 at a concrete saturated shard. -/
theorem c5_witness :
    Shard.set shardC5 "k" (3 : Int) false [] 0 0 = Except.ok (shardC5, false) :=
  c5_saturated_set_rejects_write shardC5 "k" 3 false [] 0 0 (by decide) (by decide)

/-! ### Claim C6: expired entries read as absent -/

/-- C6.  A key that resolves (directly or through an alias) to an entry whose
    `expiresAt` lies before the current time is reported by `shard.get`
    exactly like a key with no entry at all: `(zero value, exists = false,
    markedAsMissing = false, refresh = false)` and no state change — even
    though the entry is still physically present. -/
theorem c6_expired_entry_reads_as_absent {T : Type} (s : Shard T) (key k : String)
    (e : Entry T) (now : Int)
    (hfind : s.unsafeGetByKeyOrAlias key = some (k, e))
    (hexp : e.expiresAt < now) :
    s.get key now = (s, ⟨none, false, false, false⟩) ∧
    ∀ key2, s.unsafeGetByKeyOrAlias key2 = none →
      s.get key2 now = (s, ⟨none, false, false, false⟩) := by
  constructor
  · unfold Shard.get
    rw [hfind]
    simp [hexp]
  · intro key2 h2
    unfold Shard.get
    rw [h2]

/-- Entry for the C6 witness: expires at time 0. -/
def entryC6 : Entry Int :=
  { key := "k", value := 9, expiresAt := 0, refreshAt := 0,
    numOfRefreshRetries := 0, isMissingRecord := false }

/-- Shard for the C6 witness: holds the expired `entryC6` under key "k",
    reachable through alias "a". -/
def shardC6 : Shard Int :=
  { capacity := 10
    ttl := 10
    entries := [("k", entryC6)]
    entryKeysByAlias := [("a", "k")]
    aliasesByEntryKey := [("k", ["a"])]
    evictionPercentage := 10
    refreshInBackground := true
    minRefreshTime := 1
    maxRefreshTime := 2
    retryBaseDelay := 1 }

/-- Witness for C6: the expired entry (looked up through its alias) reads
    exactly like the absent key "nope". -/
theorem c6_witness :
    Shard.get shardC6 "a" 5 = (shardC6, ⟨none, false, false, false⟩) ∧
    Shard.get shardC6 "nope" 5 = (shardC6, ⟨none, false, false, false⟩) := by
  obtain ⟨h1, h2⟩ :=
    c6_expired_entry_reads_as_absent shardC6 "a" "k" entryC6 5 (by decide) (by decide)
  exact ⟨h1, h2 "nope" (by decide)⟩

/-! ### Claim C2: refresh-ahead re-check under the exclusive lock -/

/-- C2 (amended).  In `shard.get` with refresh-ahead enabled, the branch
    taken after upgrading to the exclusive lock is `getRefreshRecheck`
    (first conjunct).  When the re-check still finds the current time past
    `refreshAt`, the entry's `refreshAt` is advanced to
    `now + wrap64 (retryBaseDelay * wrap64 (2 ^ numOfRefreshRetries))` — the
    64-bit wraparound of `retryBaseDelay × 2^numOfRefreshRetries` —
    `numOfRefreshRetries` is incremented by one and the value is returned
    with `shouldRefresh = true` (second conjunct).  When the re-check finds
    the entry no longer due, the value is returned with
    `shouldRefresh = false` and the state is unchanged (third conjunct).
    The wrapped backoff equals the exact `retryBaseDelay × 2^n` whenever
    that product fits in a signed 64-bit integer (fourth conjunct). -/
theorem c2_refresh_recheck_backoff {T : Type} (s : Shard T) (key k : String)
    (item : Entry T) (now : Int) :
    (s.refreshInBackground = true → s.unsafeGetByKeyOrAlias key = some (k, item) →
      ¬ item.expiresAt < now → item.refreshAt < now →
      s.get key now = s.getRefreshRecheck k item now) ∧
    (item.refreshAt < now →
      s.getRefreshRecheck k item now =
        ({ s with
           entries :=
             minsert s.entries k
               { item with
                 refreshAt := now +
                   wrap64 (s.retryBaseDelay * wrap64 (2 ^ item.numOfRefreshRetries))
                 numOfRefreshRetries := item.numOfRefreshRetries + 1 } },
         ⟨some item.value, true, item.isMissingRecord, true⟩)) ∧
    (¬ item.refreshAt < now →
      s.getRefreshRecheck k item now =
        (s, ⟨some item.value, true, item.isMissingRecord, false⟩)) ∧
    (∀ base : Int, ∀ n : Nat, 0 ≤ base → base * 2 ^ n < 2 ^ 63 →
      wrap64 (base * wrap64 (2 ^ n)) = base * 2 ^ n) := by
  refine ⟨fun hrib hfind hexp hdue => ?_, fun hdue => ?_, fun hnot => ?_,
    fun base n hb hlt => ?_⟩
  · unfold Shard.get
    rw [hfind]
    simp only [if_neg hexp]
    rw [if_pos (⟨hrib, hdue⟩ : s.refreshInBackground = true ∧ item.refreshAt < now)]
  · unfold Shard.getRefreshRecheck
    rw [if_neg (not_not_intro hdue)]
  · exact if_pos hnot
  · by_cases hb0 : base = 0
    · subst hb0
      have hz : wrap64 0 = 0 := by decide
      simp [hz]
    · have hbpos : 0 < base := lt_of_le_of_ne hb (Ne.symm hb0)
      have h2nn : (0 : Int) ≤ 2 ^ n := by positivity
      have h2n : (2 : Int) ^ n < 2 ^ 63 := by
        have h1 : (2 : Int) ^ n = 1 * 2 ^ n := (one_mul _).symm
        have h2 : (1 : Int) * 2 ^ n ≤ base * 2 ^ n :=
          mul_le_mul_of_nonneg_right hbpos h2nn
        linarith
      rw [wrap64_eq_self (2 ^ n) (by linarith) h2n]
      have hnn : (0 : Int) ≤ base * 2 ^ n := mul_nonneg hb h2nn
      exact wrap64_eq_self _ (by linarith) hlt

/-- Entry for the C2 counterexample: 64 accumulated refresh retries. -/
def entryC2x : Entry Int :=
  { key := "k"
    value := 5
    expiresAt := 100
    refreshAt := 0
    numOfRefreshRetries := 64
    isMissingRecord := false }

/-- Shard for the C2 counterexample: refresh-ahead enabled,
    `retryBaseDelay = 1`. -/
def shardC2x : Shard Int :=
  { capacity := 10
    ttl := 100
    entries := [("k", entryC2x)]
    entryKeysByAlias := []
    aliasesByEntryKey := []
    evictionPercentage := 10
    refreshInBackground := true
    minRefreshTime := 1
    maxRefreshTime := 1
    retryBaseDelay := 1 }

/-- C2 counterexample.  At `numOfRefreshRetries = 64` and
    `retryBaseDelay = 1`, the refresh branch is taken (`refresh = true`) but
    the entry's new `refreshAt` is `1` — the Go computation
    `retryBaseDelay * (1 << 64)` wraps to 0 in `int64` — whereas the claim
    as stated demands `now + retryBaseDelay × 2^64 = 1 + 2^64 ≠ 1`. -/
theorem c2_counterexample :
    (Shard.get shardC2x "k" 1).2.refresh = true ∧
    (mfind (Shard.get shardC2x "k" 1).1.entries "k").map Entry.refreshAt = some 1 ∧
    (1 : Int) + 1 * 2 ^ 64 ≠ 1 := by
  refine ⟨by decide, by decide, by decide⟩

/-- Entry for the C2 witness: 2 accumulated refresh retries, due since 0. -/
def entryC2w : Entry Int :=
  { key := "k"
    value := 3
    expiresAt := 100
    refreshAt := 0
    numOfRefreshRetries := 2
    isMissingRecord := false }

/-- Shard for the C2 witness: refresh-ahead enabled, `retryBaseDelay = 3`. -/
def shardC2w : Shard Int :=
  { capacity := 10
    ttl := 100
    entries := [("k", entryC2w)]
    entryKeysByAlias := []
    aliasesByEntryKey := []
    evictionPercentage := 10
    refreshInBackground := true
    minRefreshTime := 1
    maxRefreshTime := 1
    retryBaseDelay := 3 }

/-- The entry `shardC2w` holds after the witness refresh at time 5. -/
def entryC2w2 : Entry Int :=
  { key := "k"
    value := 3
    expiresAt := 100
    refreshAt := 5 + wrap64 ((3 : Int) * wrap64 (2 ^ 2))
    numOfRefreshRetries := 3
    isMissingRecord := false }

/-- Witness for C2 at concrete inputs (due at `now = 5`, not due at
    `now = -5`, and an in-range backoff product). -/
theorem c2_witness :
    Shard.get shardC2w "k" 5 = Shard.getRefreshRecheck shardC2w "k" entryC2w 5 ∧
    Shard.getRefreshRecheck shardC2w "k" entryC2w 5 =
      ({ shardC2w with entries := minsert shardC2w.entries "k" entryC2w2 },
       ⟨some (3 : Int), true, false, true⟩) ∧
    Shard.getRefreshRecheck shardC2w "k" entryC2w (-5) =
      (shardC2w, ⟨some (3 : Int), true, false, false⟩) ∧
    wrap64 ((3 : Int) * wrap64 (2 ^ 2)) = 3 * 2 ^ 2 := by
  obtain ⟨h1, h2, _, h4⟩ := c2_refresh_recheck_backoff shardC2w "k" "k" entryC2w 5
  obtain ⟨_, _, h3, _⟩ := c2_refresh_recheck_backoff shardC2w "k" "k" entryC2w (-5)
  exact ⟨h1 rfl (by decide) (by decide) (by decide), h2 (by decide), h3 (by decide),
    h4 3 2 (by decide) (by decide)⟩

/-! ### `set` / `unsafeUpsert` characterization helpers -/

theorem get_of_unsafeGet_none {T : Type} (s : Shard T) (key : String) (now : Int)
    (h : s.unsafeGetByKeyOrAlias key = none) :
    s.get key now = (s, ⟨none, false, false, false⟩) := by
  unfold Shard.get
  rw [h]

theorem set_saturated_eq {T : Type} (s : Shard T) (key : String) (value : T)
    (m : Bool) (aliases : List String) (now pad : Int)
    (hcap : s.capacity ≤ s.entries.length) (hpct : s.evictionPercentage < 1) :
    s.set key value m aliases now pad = Except.ok (s, false) := by
  unfold Shard.set
  exact if_pos ⟨hpct, hcap⟩

theorem set_eq_upsert {T : Type} (s : Shard T) (key : String) (value : T)
    (m : Bool) (aliases : List String) (now pad : Int)
    (hc : ¬ (s.evictionPercentage < 1 ∧ s.capacity ≤ s.entries.length)) :
    s.set key value m aliases now pad =
      ((if s.capacity ≤ s.entries.length then s.forceEvict else s).unsafeUpsert
        (mkSetEntry (if s.capacity ≤ s.entries.length then s.forceEvict else s)
          key value m now pad) key aliases).map
        (fun s2 => (s2, decide (s.capacity ≤ s.entries.length))) := by
  unfold Shard.set
  rw [if_neg hc]

theorem unsafeUpsert_eq_ok {T : Type} (s : Shard T) (e : Entry T) (key : String)
    (aliases : List String)
    (hconf : ∀ a ∈ aliases, mfind s.entryKeysByAlias a = none ∨
      mfind s.entryKeysByAlias a = some key) :
    s.unsafeUpsert e key aliases = Except.ok (upsertResult s e key aliases) := by
  unfold Shard.unsafeUpsert
  have hany : ¬ (aliases.any (fun a =>
      match mfind s.entryKeysByAlias a with
      | some entryKey => entryKey != key
      | none => false) = true) := by
    rw [List.any_eq_true]
    rintro ⟨a, ha, hfa⟩
    rcases hconf a ha with h | h <;> rw [h] at hfa
    · cases hfa
    · simp at hfa
  rw [if_neg hany]

theorem conflictFree_of_unsafeUpsert_ok {T : Type} (s : Shard T) (e : Entry T)
    (key : String) (aliases : List String) (s2 : Shard T)
    (h : s.unsafeUpsert e key aliases = Except.ok s2) :
    (∀ a ∈ aliases, mfind s.entryKeysByAlias a = none ∨
      mfind s.entryKeysByAlias a = some key) ∧
    s2 = upsertResult s e key aliases := by
  unfold Shard.unsafeUpsert at h
  by_cases hany : (aliases.any (fun a =>
      match mfind s.entryKeysByAlias a with
      | some entryKey => entryKey != key
      | none => false) = true)
  · rw [if_pos hany] at h
    cases h
  · rw [if_neg hany] at h
    constructor
    · intro a ha
      cases hfa : mfind s.entryKeysByAlias a with
      | none => exact Or.inl rfl
      | some k' =>
        have hkk : k' = key := by
          by_contra hne
          apply hany
          rw [List.any_eq_true]
          exact ⟨a, ha, by rw [hfa]; exact bne_iff_ne.mpr hne⟩
        right
        exact congrArg some hkk
    · injection h with h2
      exact h2.symm

theorem upsertResult_mfind_entries {T : Type} (s : Shard T) (e : Entry T)
    (key : String) (aliases : List String) (q : String) :
    mfind (upsertResult s e key aliases).entries q =
      if key = q then some e else mfind s.entries q := by
  have hred : (upsertResult s e key aliases).entries =
      minsert (if (mfind s.entries key).isSome = true then s.unsafeDelete key
        else s).entries key e := rfl
  rw [hred, mfind_minsert]
  by_cases hk : key = q
  · rw [if_pos hk, if_pos hk]
  · rw [if_neg hk, if_neg hk]
    by_cases hd : (mfind s.entries key).isSome = true
    · rw [if_pos hd, unsafeDelete_mfind_entries, if_neg (fun h : q = key => hk h.symm)]
    · rw [if_neg hd]

theorem upsertResult_mfind_alias {T : Type} (s : Shard T) (e : Entry T)
    (key : String) (aliases : List String) (a : String) :
    mfind (upsertResult s e key aliases).entryKeysByAlias a =
      if a ∈ aliases then some key
      else mfind (if (mfind s.entries key).isSome = true then s.unsafeDelete key
        else s).entryKeysByAlias a := by
  have hred : (upsertResult s e key aliases).entryKeysByAlias =
      aliases.foldl (fun m x => minsert m x key)
        (if (mfind s.entries key).isSome = true then s.unsafeDelete key
          else s).entryKeysByAlias := rfl
  rw [hred, mfind_foldl_minsert]

theorem upsertResult_mfind_aliasList {T : Type} (s : Shard T) (e : Entry T)
    (key : String) (aliases : List String) (k2 : String) :
    mfind (upsertResult s e key aliases).aliasesByEntryKey k2 =
      if key = k2 then some aliases
      else mfind (if (mfind s.entries key).isSome = true then s.unsafeDelete key
        else s).aliasesByEntryKey k2 := by
  have hred : (upsertResult s e key aliases).aliasesByEntryKey =
      minsert (if (mfind s.entries key).isSome = true then s.unsafeDelete key
        else s).aliasesByEntryKey key aliases := rfl
  rw [hred, mfind_minsert]

theorem mkSetEntry_fields {T : Type} (s1 : Shard T) (key : String) (value : T)
    (m : Bool) (now pad : Int) :
    (mkSetEntry s1 key value m now pad).key = key ∧
    (mkSetEntry s1 key value m now pad).value = value ∧
    (mkSetEntry s1 key value m now pad).expiresAt = now + s1.ttl ∧
    (mkSetEntry s1 key value m now pad).isMissingRecord = m ∧
    (mkSetEntry s1 key value m now pad).numOfRefreshRetries = 0 :=
  ⟨rfl, rfl, rfl, rfl, rfl⟩

theorem get_found_unexpired {T : Type} (s : Shard T) (key k : String) (e : Entry T)
    (now : Int) (hfind : s.unsafeGetByKeyOrAlias key = some (k, e))
    (hexp : ¬ e.expiresAt < now) :
    s.get key now =
      if s.refreshInBackground = true ∧ e.refreshAt < now then
        s.getRefreshRecheck k e now
      else (s, ⟨some e.value, true, e.isMissingRecord, false⟩) := by
  unfold Shard.get
  rw [hfind]
  by_cases hr : s.refreshInBackground = true ∧ e.refreshAt < now
  · rw [if_pos hr]
    simp [hexp, hr]
  · rw [if_neg hr]
    simp [hexp, hr]

/-! ### Claim C9: negative-cache hits are reported distinctly from misses -/

/-- C9.  After storing a key with `isMissingRecord = true`, a read (before
    expiry) returns `(value, exists = true, markedAsMissing = true, _)`,
    while a key with no entry returns
    `(zero value, exists = false, markedAsMissing = false, false)` — the
    caller can therefore distinguish a cached "missing" marker from a key
    that is simply absent. -/
theorem c9_missing_record_reported_distinctly {T : Type} (s : Shard T) (key : String)
    (v : T) (now pad now2 : Int) (s1 : Shard T) (b : Bool)
    (hcap : s.entries.length < s.capacity)
    (hset : s.set key v true [] now pad = Except.ok (s1, b))
    (hfresh : ¬ now + s.ttl < now2) :
    (∃ s2 r, s1.get key now2 = (s2, ⟨some v, true, true, r⟩)) ∧
    ∀ key2, s1.unsafeGetByKeyOrAlias key2 = none →
      s1.get key2 now2 = (s1, ⟨none, false, false, false⟩) := by
  have hnc : ¬ s.capacity ≤ s.entries.length := Nat.not_le.mpr hcap
  rw [set_eq_upsert s key v true [] now pad (fun h => hnc h.2), if_neg hnc,
    unsafeUpsert_eq_ok s _ key [] (fun a ha => absurd ha (List.not_mem_nil a))] at hset
  simp only [Except.map] at hset
  injection hset with hpair
  have hs1 : s1 = upsertResult s (mkSetEntry s key v true now pad) key [] :=
    (congrArg Prod.fst hpair).symm
  subst hs1
  have hfindE : mfind (upsertResult s (mkSetEntry s key v true now pad) key []).entries
      key = some (mkSetEntry s key v true now pad) := by
    rw [upsertResult_mfind_entries, if_pos rfl]
  have hget : (upsertResult s (mkSetEntry s key v true now pad) key
      []).unsafeGetByKeyOrAlias key = some (key, mkSetEntry s key v true now pad) := by
    unfold Shard.unsafeGetByKeyOrAlias
    rw [hfindE]
  constructor
  · rw [get_found_unexpired _ key key _ now2 hget hfresh]
    by_cases hr : (upsertResult s (mkSetEntry s key v true now pad) key
        []).refreshInBackground = true ∧ (mkSetEntry s key v true now pad).refreshAt < now2
    · rw [if_pos hr]
      unfold Shard.getRefreshRecheck
      rw [if_neg (not_not_intro hr.2)]
      exact ⟨_, _, rfl⟩
    · rw [if_neg hr]
      exact ⟨_, _, rfl⟩
  · exact fun key2 h2 => get_of_unsafeGet_none _ key2 now2 h2

/-- Empty shard for the C9 witness. -/
def shardC9 : Shard Int :=
  { capacity := 1
    ttl := 100
    entries := []
    entryKeysByAlias := []
    aliasesByEntryKey := []
    evictionPercentage := 0
    refreshInBackground := false
    minRefreshTime := 0
    maxRefreshTime := 0
    retryBaseDelay := 0 }

/-- `shardC9` after `set "k" 0 isMissingRecord=true` at time 0. -/
def shardC9b : Shard Int :=
  upsertResult shardC9 (mkSetEntry shardC9 "k" 0 true 0 0) "k" []

/-- Witness for C9: the stored missing record reads back as
    `(some 0, true, true, _)`; the absent key "nope" reads as
    `(none, false, false, false)`. -/
theorem c9_witness :
    (∃ s2 r, Shard.get shardC9b "k" 50 = (s2, ⟨some (0 : Int), true, true, r⟩)) ∧
    Shard.get shardC9b "nope" 50 = (shardC9b, ⟨none, false, false, false⟩) := by
  obtain ⟨h1, h2⟩ := c9_missing_record_reported_distinctly shardC9 "k" 0 0 0 50
    shardC9b false (by decide) rfl (by decide)
  exact ⟨h1, h2 "nope" (by decide)⟩

/-! ### Alias-guard characterizations -/

theorem set_aliasGuard_cons_some {T : Type} (c : Client T) (key a : String)
    (rest : List String) (shardIndex j : Nat)
    (hfa : mfind c.shardIndexByAlias a = some j) :
    c.set_aliasGuard key (a :: rest) shardIndex =
      if j ≠ shardIndex then
        Except.error "alias already exists in a different shard"
      else if ((c.shards[shardIndex]?.map (fun sh =>
          (mfind sh.entryKeysByAlias a).getD "")).getD "") ≠ key then
        Except.error "alias already exists for a different key"
      else c.set_aliasGuard key rest shardIndex := by
  simp only [Client.set_aliasGuard]
  rw [hfa]

theorem set_aliasGuard_cons_none {T : Type} (c : Client T) (key a : String)
    (rest : List String) (shardIndex : Nat)
    (hfa : mfind c.shardIndexByAlias a = none) :
    c.set_aliasGuard key (a :: rest) shardIndex =
      Client.set_aliasGuard
        { c with shardIndexByAlias := minsert c.shardIndexByAlias a shardIndex }
        key rest shardIndex := by
  simp only [Client.set_aliasGuard]
  rw [hfa]

theorem set_aliasGuard_ok_post {T : Type} (aliases : List String) (c c1 : Client T)
    (key : String) (shardIndex : Nat)
    (h : c.set_aliasGuard key aliases shardIndex = Except.ok c1) :
    c1.shards = c.shards ∧ c1.hash = c.hash ∧
    (∀ a ∈ aliases, mfind c1.shardIndexByAlias a = some shardIndex) ∧
    (∀ q j, mfind c.shardIndexByAlias q = some j →
      mfind c1.shardIndexByAlias q = some j) ∧
    (∀ q j, mfind c1.shardIndexByAlias q = some j →
      mfind c.shardIndexByAlias q = some j ∨ j = shardIndex) := by
  induction aliases generalizing c with
  | nil =>
    injection h with h2
    subst h2
    exact ⟨rfl, rfl, fun a ha => absurd ha (List.not_mem_nil a),
      fun q j hq => hq, fun q j hq => Or.inl hq⟩
  | cons a rest ih =>
    cases hfa : mfind c.shardIndexByAlias a with
    | some j =>
      rw [set_aliasGuard_cons_some c key a rest shardIndex j hfa] at h
      by_cases hj : j ≠ shardIndex
      · rw [if_pos hj] at h; cases h
      · rw [if_neg hj] at h
        push_neg at hj
        by_cases hkey : ((c.shards[shardIndex]?.map (fun sh =>
            (mfind sh.entryKeysByAlias a).getD "")).getD "") ≠ key
        · rw [if_pos hkey] at h; cases h
        · rw [if_neg hkey] at h
          obtain ⟨p1, p2, p3, p4, p5⟩ := ih c h
          refine ⟨p1, p2, ?_, p4, p5⟩
          intro b hb
          rcases List.mem_cons.mp hb with hba | hb2
          · subst hba
            have := p4 b j hfa
            rwa [hj] at this
          · exact p3 b hb2
    | none =>
      rw [set_aliasGuard_cons_none c key a rest shardIndex hfa] at h
      obtain ⟨p1, p2, p3, p4, p5⟩ := ih _ h
      refine ⟨p1, p2, ?_, ?_, ?_⟩
      · intro b hb
        rcases List.mem_cons.mp hb with hba | hb2
        · subst hba
          exact p4 b shardIndex (by rw [mfind_minsert, if_pos rfl])
        · exact p3 b hb2
      · intro q j hq
        have hne : ¬ a = q := fun haq => by rw [haq] at hfa; rw [hfa] at hq; cases hq
        exact p4 q j (by rw [mfind_minsert, if_neg hne]; exact hq)
      · intro q j hq
        rcases p5 q j hq with hq2 | hq2
        · rw [mfind_minsert] at hq2
          by_cases haq : a = q
          · rw [if_pos haq] at hq2
            injection hq2 with hq3
            exact Or.inr hq3.symm
          · rw [if_neg haq] at hq2
            exact Or.inl hq2
        · exact Or.inr hq2

theorem set_aliasGuard_error_of_shard_conflict {T : Type} (aliases : List String)
    (c : Client T) (key : String) (shardIndex : Nat) (a : String) (i : Nat)
    (ha : a ∈ aliases) (hfind : mfind c.shardIndexByAlias a = some i)
    (hne : i ≠ shardIndex) :
    ∃ msg, c.set_aliasGuard key aliases shardIndex = Except.error msg := by
  induction aliases generalizing c with
  | nil => cases ha
  | cons b rest ih =>
    by_cases hb : b = a
    · subst hb
      rw [set_aliasGuard_cons_some c key b rest shardIndex i hfind, if_pos hne]
      exact ⟨_, rfl⟩
    · have ha2 : a ∈ rest := by
        rcases List.mem_cons.mp ha with hba | h2
        · exact absurd hba.symm hb
        · exact h2
      cases hfb : mfind c.shardIndexByAlias b with
      | some j =>
        rw [set_aliasGuard_cons_some c key b rest shardIndex j hfb]
        by_cases hj : j ≠ shardIndex
        · rw [if_pos hj]; exact ⟨_, rfl⟩
        · rw [if_neg hj]
          by_cases hkey : ((c.shards[shardIndex]?.map (fun sh =>
              (mfind sh.entryKeysByAlias b).getD "")).getD "") ≠ key
          · rw [if_pos hkey]; exact ⟨_, rfl⟩
          · rw [if_neg hkey]
            exact ih c ha2 hfind
      | none =>
        rw [set_aliasGuard_cons_none c key b rest shardIndex hfb]
        refine ih _ ha2 ?_
        rw [mfind_minsert, if_neg (fun h : b = a => hb h)]
        exact hfind

theorem set_aliasGuard_error_of_key_conflict {T : Type} (aliases : List String)
    (c : Client T) (key : String) (shardIndex : Nat) (a : String) (sh : Shard T)
    (k' : String) (ha : a ∈ aliases)
    (hfind : mfind c.shardIndexByAlias a = some shardIndex)
    (hsh : c.shards[shardIndex]? = some sh)
    (hk : mfind sh.entryKeysByAlias a = some k') (hne : k' ≠ key) :
    ∃ msg, c.set_aliasGuard key aliases shardIndex = Except.error msg := by
  induction aliases generalizing c with
  | nil => cases ha
  | cons b rest ih =>
    by_cases hb : b = a
    · subst hb
      rw [set_aliasGuard_cons_some c key b rest shardIndex shardIndex hfind,
        if_neg (fun h : shardIndex ≠ shardIndex => h rfl)]
      have hcond : ((c.shards[shardIndex]?.map (fun t =>
          (mfind t.entryKeysByAlias b).getD "")).getD "") = k' := by
        rw [hsh]
        show (mfind sh.entryKeysByAlias b).getD "" = k'
        rw [hk]
        rfl
      rw [if_pos (show _ ≠ key by rw [hcond]; exact hne)]
      exact ⟨_, rfl⟩
    · have ha2 : a ∈ rest := by
        rcases List.mem_cons.mp ha with hba | h2
        · exact absurd hba.symm hb
        · exact h2
      cases hfb : mfind c.shardIndexByAlias b with
      | some j =>
        rw [set_aliasGuard_cons_some c key b rest shardIndex j hfb]
        by_cases hj : j ≠ shardIndex
        · rw [if_pos hj]; exact ⟨_, rfl⟩
        · rw [if_neg hj]
          by_cases hkey : ((c.shards[shardIndex]?.map (fun t =>
              (mfind t.entryKeysByAlias b).getD "")).getD "") ≠ key
          · rw [if_pos hkey]; exact ⟨_, rfl⟩
          · rw [if_neg hkey]
            exact ih c ha2 hfind hsh
      | none =>
        rw [set_aliasGuard_cons_none c key b rest shardIndex hfb]
        refine ih _ ha2 ?_ hsh
        rw [mfind_minsert, if_neg (fun h : b = a => hb h)]
        exact hfind

theorem clientSet_ok_elim {T : Type} (c : Client T) (key : String) (value : T)
    (aliases : List String) (now pad : Int) (c' : Client T) (b : Bool)
    (h : c.clientSet key value aliases now pad = Except.ok (c', b)) :
    ∃ c1 sh sh2,
      c.set_aliasGuard key aliases (c.getShardIndex key) = Except.ok c1 ∧
      c1.shards[(c.getShardIndex key)]? = some sh ∧
      sh.set key value false aliases now pad = Except.ok (sh2, b) ∧
      c' = { c1 with shards := c1.shards.set (c.getShardIndex key) sh2 } := by
  unfold Client.clientSet at h
  split at h
  · cases h
  · rename_i c1 hg
    split at h
    · cases h
    · rename_i sh hsh
      split at h
      · cases h
      · rename_i sh2 evicted hset
        injection h with h2
        have hc : c' = { c1 with shards := c1.shards.set (c.getShardIndex key) sh2 } :=
          (congrArg Prod.fst h2).symm
        have hb : evicted = b := congrArg Prod.snd h2
        exact ⟨c1, sh, sh2, hg, hsh, hb ▸ hset, hc⟩

/-! ### Claim C7: shard routing by alias map, then hash -/

/-- C7.  `getShardIndex` returns the recorded shard index whenever the key is
    in the global alias→shard map, and otherwise `hash(key) % numShards`
    (the abstract `hash` stands for `xxhash.Sum64String`); consequently,
    after a successful `Set` of a primary key with aliases, a lookup of any
    of those aliases routes to the same shard as a lookup of the primary
    key. -/
theorem c7_shard_routing {T : Type} :
    (∀ (c : Client T) (key : String) (i : Nat),
      mfind c.shardIndexByAlias key = some i → c.getShardIndex key = i) ∧
    (∀ (c : Client T) (key : String),
      mfind c.shardIndexByAlias key = none →
      c.getShardIndex key = c.hash key % c.shards.length) ∧
    (∀ (c : Client T) (key : String) (value : T) (aliases : List String)
      (now pad : Int) (c' : Client T) (b : Bool),
      c.clientSet key value aliases now pad = Except.ok (c', b) →
      ∀ a ∈ aliases, c'.getShardIndex a = c'.getShardIndex key) := by
  refine ⟨fun c key i h => ?_, fun c key h => ?_,
    fun c key value aliases now pad c' b h a ha => ?_⟩
  · unfold Client.getShardIndex
    rw [h]
  · unfold Client.getShardIndex
    rw [h]
  · obtain ⟨c1, sh, sh2, hg, hsh, hset, hc⟩ :=
      clientSet_ok_elim c key value aliases now pad c' b h
    obtain ⟨p1, p2, p3, p4, p5⟩ :=
      set_aliasGuard_ok_post aliases c c1 key (c.getShardIndex key) hg
    have hmap : c'.shardIndexByAlias = c1.shardIndexByAlias := by rw [hc]
    have hlen : c'.shards.length = c.shards.length := by
      rw [hc]
      show (c1.shards.set (c.getShardIndex key) sh2).length = c.shards.length
      rw [List.length_set, p1]
    have hhash : c'.hash = c.hash := by
      rw [hc]
      exact p2
    have hga : c'.getShardIndex a = c.getShardIndex key := by
      unfold Client.getShardIndex
      rw [hmap, p3 a ha]
      rfl
    have hgk : c'.getShardIndex key = c.getShardIndex key := by
      cases hj : mfind c1.shardIndexByAlias key with
      | some j =>
        have h1 : c'.getShardIndex key = j := by
          unfold Client.getShardIndex
          rw [hmap, hj]
        rcases p5 key j hj with hcase | hcase
        · have h2 : c.getShardIndex key = j := by
            unfold Client.getShardIndex
            rw [hcase]
          rw [h1, h2]
        · rw [h1, hcase]
      | none =>
        have hck : mfind c.shardIndexByAlias key = none := by
          cases hck2 : mfind c.shardIndexByAlias key with
          | none => rfl
          | some j =>
            rw [p4 key j hck2] at hj
            cases hj
        have h1 : c'.getShardIndex key = c'.hash key % c'.shards.length := by
          unfold Client.getShardIndex
          rw [hmap, hj]
        have h2 : c.getShardIndex key = c.hash key % c.shards.length := by
          unfold Client.getShardIndex
          rw [hck]
        rw [h1, h2, hhash, hlen]
    rw [hga, hgk]

/-! ### Claim C10: the global alias→shard map only grows -/

/-- C10.  A successful `Set` preserves every existing binding of the global
    alias→shard map (it only adds bindings); `Delete` and the background
    eviction tick leave the map untouched (shard-level `delete`,
    `evictExpired` and `forceEvict` act on a `Shard`, which holds no
    alias→shard state at all); consequently a later `Set` that reuses a
    registered alias for a key whose hash routes to a different shard fails
    with the fatal fault even when no hypothesis about live entries is
    made. -/
theorem c10_alias_shard_map_grow_only {T : Type} :
    (∀ (c : Client T) (key : String) (value : T) (aliases : List String)
      (now pad : Int) (c' : Client T) (b : Bool),
      c.clientSet key value aliases now pad = Except.ok (c', b) →
      ∀ a i, mfind c.shardIndexByAlias a = some i →
        mfind c'.shardIndexByAlias a = some i) ∧
    (∀ (c : Client T) (key : String),
      (c.clientDelete key).shardIndexByAlias = c.shardIndexByAlias) ∧
    (∀ (c : Client T) (i : Nat) (now : Int),
      (c.evictTick i now).shardIndexByAlias = c.shardIndexByAlias) ∧
    (∀ (c : Client T) (key2 : String) (value : T) (aliases : List String)
      (now pad : Int) (a : String) (i : Nat),
      mfind c.shardIndexByAlias a = some i →
      mfind c.shardIndexByAlias key2 = none →
      c.hash key2 % c.shards.length ≠ i →
      a ∈ aliases →
      ∃ msg, c.clientSet key2 value aliases now pad = Except.error msg) := by
  refine ⟨?_, ?_, ?_, ?_⟩
  · intro c key value aliases now pad c' b h a i hfa
    obtain ⟨c1, sh, sh2, hg, hsh, hset, hc⟩ :=
      clientSet_ok_elim c key value aliases now pad c' b h
    obtain ⟨p1, p2, p3, p4, p5⟩ :=
      set_aliasGuard_ok_post aliases c c1 key (c.getShardIndex key) hg
    have hmap : c'.shardIndexByAlias = c1.shardIndexByAlias := by rw [hc]
    rw [hmap]
    exact p4 a i hfa
  · intro c key
    unfold Client.clientDelete
    split <;> rfl
  · intro c i now
    unfold Client.evictTick
    split <;> rfl
  · intro c key2 value aliases now pad a i hfa hk2 hhash ha
    have hne : i ≠ c.getShardIndex key2 := by
      have hidx : c.getShardIndex key2 = c.hash key2 % c.shards.length := by
        unfold Client.getShardIndex
        rw [hk2]
      rw [hidx]
      exact fun h2 => hhash h2.symm
    obtain ⟨msg, hmsg⟩ := set_aliasGuard_error_of_shard_conflict aliases c key2
      (c.getShardIndex key2) a i ha hfa hne
    refine ⟨msg, ?_⟩
    unfold Client.clientSet
    rw [hmsg]

/-! ### Claim C3: alias conflicts are fatal faults -/

/-- C3 (amended).  A shard-level `set` whose alias is already bound in the
    shard to a different key panics — provided the shard is below capacity
    (at capacity with `evictionPercentage < 1` the write is rejected with
    `evicted = false` before the conflict check runs, and at capacity with
    eviction enabled the forced eviction may first remove the conflicting
    binding).  `Client.Set` panics whenever some alias is recorded in the
    global alias→shard map for a shard other than the target, or is
    recorded for the target shard while the shard's `entryKeysByAlias`
    binds it to a different key. -/
theorem c3_alias_conflicts_panic {T : Type} :
    (∀ (s : Shard T) (key : String) (value : T) (m : Bool)
      (aliases : List String) (now pad : Int) (a k' : String),
      s.entries.length < s.capacity → a ∈ aliases →
      mfind s.entryKeysByAlias a = some k' → k' ≠ key →
      ∃ msg, s.set key value m aliases now pad = Except.error msg) ∧
    (∀ (c : Client T) (key : String) (value : T) (aliases : List String)
      (now pad : Int) (a : String) (i : Nat),
      a ∈ aliases → mfind c.shardIndexByAlias a = some i →
      i ≠ c.getShardIndex key →
      ∃ msg, c.clientSet key value aliases now pad = Except.error msg) ∧
    (∀ (c : Client T) (key : String) (value : T) (aliases : List String)
      (now pad : Int) (a : String) (sh : Shard T) (k' : String),
      a ∈ aliases → mfind c.shardIndexByAlias a = some (c.getShardIndex key) →
      c.shards[(c.getShardIndex key)]? = some sh →
      mfind sh.entryKeysByAlias a = some k' → k' ≠ key →
      ∃ msg, c.clientSet key value aliases now pad = Except.error msg) := by
  refine ⟨?_, ?_, ?_⟩
  · intro s key value m aliases now pad a k' hcap ha hfa hne
    have hnc : ¬ s.capacity ≤ s.entries.length := Nat.not_le.mpr hcap
    refine ⟨"alias already exists on another key", ?_⟩
    rw [set_eq_upsert s key value m aliases now pad (fun h2 => hnc h2.2), if_neg hnc]
    unfold Shard.unsafeUpsert
    rw [if_pos (show _ = true by
      rw [List.any_eq_true]
      exact ⟨a, ha, by rw [hfa]; exact bne_iff_ne.mpr hne⟩)]
    rfl
  · intro c key value aliases now pad a i ha hfa hne
    obtain ⟨msg, hmsg⟩ := set_aliasGuard_error_of_shard_conflict aliases c key
      (c.getShardIndex key) a i ha hfa hne
    refine ⟨msg, ?_⟩
    unfold Client.clientSet
    rw [hmsg]
  · intro c key value aliases now pad a sh k' ha hfa hsh hk hne
    obtain ⟨msg, hmsg⟩ := set_aliasGuard_error_of_key_conflict aliases c key
      (c.getShardIndex key) a sh k' ha hfa hsh hk hne
    refine ⟨msg, ?_⟩
    unfold Client.clientSet
    rw [hmsg]

/-- Live entry under key "k1" for the C3 shards. -/
def entryC3 : Entry Int :=
  { key := "k1"
    value := 1
    expiresAt := 1000
    refreshAt := 0
    numOfRefreshRetries := 0
    isMissingRecord := false }

/-- Below-capacity shard with alias "a" bound to "k1" (C3 witness). -/
def shardC3w : Shard Int :=
  { capacity := 5
    ttl := 100
    entries := [("k1", entryC3)]
    entryKeysByAlias := [("a", "k1")]
    aliasesByEntryKey := [("k1", ["a"])]
    evictionPercentage := 10
    refreshInBackground := false
    minRefreshTime := 0
    maxRefreshTime := 0
    retryBaseDelay := 0 }

/-- Saturated variant of `shardC3w` with eviction disabled
    (C3 counterexample). -/
def shardC3x : Shard Int :=
  { shardC3w with capacity := 1, evictionPercentage := 0 }

/-- C3 counterexample.  In `shardC3x` the alias "a" is bound to "k1" ≠ "k2",
    yet `set "k2"` with alias "a" does not panic: the shard is at capacity
    with `evictionPercentage = 0`, so the call returns
    `Except.ok (shardC3x, false)` (the write is silently rejected before the
    conflict check runs), contradicting the claim that every such call
    raises a fatal fault and never returns normally. -/
theorem c3_counterexample :
    mfind shardC3x.entryKeysByAlias "a" = some "k1" ∧ "k1" ≠ "k2" ∧
    Shard.set shardC3x "k2" (0 : Int) false ["a"] 10 0 =
      Except.ok (shardC3x, false) :=
  ⟨rfl, by decide, rfl⟩

/-- An empty shard used in the witness clients. -/
def shardW0 : Shard Int :=
  { capacity := 5
    ttl := 100
    entries := []
    entryKeysByAlias := []
    aliasesByEntryKey := []
    evictionPercentage := 10
    refreshInBackground := false
    minRefreshTime := 0
    maxRefreshTime := 0
    retryBaseDelay := 0 }

/-- Shard binding alias "a" to key "other" (C3 witness, same-shard
    conflict). -/
def shardC3b : Shard Int := { shardW0 with entryKeysByAlias := [("a", "other")] }

/-- Client whose global map sends alias "a" to shard 1; "kk" hashes to
    shard 0. -/
def clientC3a : Client Int :=
  { shards := [shardW0, shardW0]
    shardIndexByAlias := [("a", 1)]
    hash := fun s => s.length }

/-- Client whose global map sends alias "a" to shard 0, where the shard
    binds "a" to "other". -/
def clientC3b : Client Int :=
  { shards := [shardC3b, shardW0]
    shardIndexByAlias := [("a", 0)]
    hash := fun s => s.length }

/-- Witness for C3: the three panic cases at concrete inputs. -/
theorem c3_witness :
    (∃ msg, Shard.set shardC3w "k2" (0 : Int) false ["a"] 0 0 =
      Except.error msg) ∧
    (∃ msg, Client.clientSet clientC3a "kk" (0 : Int) ["a"] 0 0 =
      Except.error msg) ∧
    (∃ msg, Client.clientSet clientC3b "kk" (0 : Int) ["a"] 0 0 =
      Except.error msg) := by
  obtain ⟨h1, h2, h3⟩ := c3_alias_conflicts_panic (T := Int)
  exact ⟨h1 shardC3w "k2" 0 false ["a"] 0 0 "a" "k1" (by decide) (by decide) rfl
      (by decide),
    h2 clientC3a "kk" 0 ["a"] 0 0 "a" 1 (by decide) rfl (by decide),
    h3 clientC3b "kk" 0 ["a"] 0 0 "a" shardC3b "other" (by decide) rfl rfl rfl
      (by decide)⟩

/-- Client with two shards and an empty global alias map (C7 witness). -/
def clientC7 : Client Int :=
  { shards := [shardW0, shardW0]
    shardIndexByAlias := []
    hash := fun s => s.length }

/-- `clientC7` after `Set "kk" 7` with alias "alias1" ("kk" hashes to
    shard 0). -/
def clientC7b : Client Int :=
  { shards := [upsertResult shardW0 (mkSetEntry shardW0 "kk" 7 false 0 0) "kk"
      ["alias1"], shardW0]
    shardIndexByAlias := [("alias1", 0)]
    hash := fun s => s.length }

/-- Witness for C7 at concrete inputs. -/
theorem c7_witness :
    Client.getShardIndex clientC7b "alias1" = 0 ∧
    Client.getShardIndex clientC7 "kk" =
      clientC7.hash "kk" % clientC7.shards.length ∧
    Client.getShardIndex clientC7b "alias1" = Client.getShardIndex clientC7b "kk" := by
  obtain ⟨h1, h2, h3⟩ := c7_shard_routing (T := Int)
  exact ⟨h1 clientC7b "alias1" 0 rfl, h2 clientC7 "kk" rfl,
    h3 clientC7 "kk" 7 ["alias1"] 0 0 clientC7b false rfl "alias1" (by decide)⟩

/-- Client with alias "a" registered to shard 1 (C10 witness). -/
def clientC10 : Client Int :=
  { shards := [shardW0, shardW0]
    shardIndexByAlias := [("a", 1)]
    hash := fun s => s.length }

/-- `clientC10` after `Set "x" 3` without aliases ("x" hashes to shard 1). -/
def clientC10b : Client Int :=
  { shards := [shardW0,
      upsertResult shardW0 (mkSetEntry shardW0 "x" 3 false 0 0) "x" []]
    shardIndexByAlias := [("a", 1)]
    hash := fun s => s.length }

/-- Witness for C10 at concrete inputs. -/
theorem c10_witness :
    mfind clientC10b.shardIndexByAlias "a" = some 1 ∧
    (Client.clientDelete clientC10 "a").shardIndexByAlias =
      clientC10.shardIndexByAlias ∧
    (Client.evictTick clientC10 0 5).shardIndexByAlias =
      clientC10.shardIndexByAlias ∧
    (∃ msg, Client.clientSet clientC10 "kk" (3 : Int) ["a"] 0 0 =
      Except.error msg) := by
  obtain ⟨h1, h2, h3, h4⟩ := c10_alias_shard_map_grow_only (T := Int)
  exact ⟨h1 clientC10 "x" 3 [] 0 0 clientC10b false rfl "a" 1 rfl,
    h2 clientC10 "a", h3 clientC10 0 5,
    h4 clientC10 "kk" 3 ["a"] 0 0 "a" 1 rfl rfl (by decide) (by decide)⟩

/-! ### Sorting lemmas for the eviction cutoff -/

theorem insertSorted_perm (x : Int) (l : List Int) :
    List.Perm (insertSorted x l) (x :: l) := by
  induction l with
  | nil => exact List.Perm.refl _
  | cons y ys ih =>
    unfold insertSorted
    by_cases h : x ≤ y
    · rw [if_pos h]
    · rw [if_neg h]
      exact (List.Perm.cons y ih).trans (List.Perm.swap x y ys)

theorem sortTimes_perm (l : List Int) : List.Perm (sortTimes l) l := by
  induction l with
  | nil => exact List.Perm.refl _
  | cons x xs ih =>
    exact (insertSorted_perm x (sortTimes xs)).trans (List.Perm.cons x ih)

theorem insertSorted_pairwise (x : Int) (l : List Int)
    (h : l.Pairwise (· ≤ ·)) : (insertSorted x l).Pairwise (· ≤ ·) := by
  induction l with
  | nil => simp [insertSorted]
  | cons y ys ih =>
    rcases List.pairwise_cons.mp h with ⟨hy, hys⟩
    unfold insertSorted
    by_cases hxy : x ≤ y
    · rw [if_pos hxy]
      refine List.pairwise_cons.mpr ⟨?_, h⟩
      intro b hb
      rcases List.mem_cons.mp hb with hba | hb2
      · exact hba ▸ hxy
      · exact le_trans hxy (hy b hb2)
    · rw [if_neg hxy]
      refine List.pairwise_cons.mpr ⟨?_, ih hys⟩
      intro b hb
      have hmem := (insertSorted_perm x ys).mem_iff.mp hb
      rcases List.mem_cons.mp hmem with hba | hb2
      · exact hba ▸ le_of_not_le hxy
      · exact hy b hb2

theorem sortTimes_pairwise (l : List Int) : (sortTimes l).Pairwise (· ≤ ·) := by
  induction l with
  | nil => exact List.Pairwise.nil
  | cons x xs ih => exact insertSorted_pairwise x (sortTimes xs) ih

theorem sortTimes_pairwise_lt (l : List Int) (hnd : l.Nodup) :
    (sortTimes l).Pairwise (· < ·) := by
  have hnd2 : (sortTimes l).Nodup := (sortTimes_perm l).nodup_iff.mpr hnd
  exact ((sortTimes_pairwise l).and hnd2).imp
    (fun h => lt_of_le_of_ne h.1 h.2)

theorem countP_lt_getD_of_pairwise_lt (l : List Int) (k : Nat) (hk : k < l.length)
    (h : l.Pairwise (· < ·)) :
    l.countP (fun t => decide (t < l.getD k 0)) = k := by
  induction l generalizing k with
  | nil => cases hk
  | cons a t ih =>
    rcases List.pairwise_cons.mp h with ⟨ha, ht⟩
    cases k with
    | zero =>
      have hget : (a :: t).getD 0 0 = a := rfl
      rw [hget, List.countP_cons]
      have h1 : t.countP (fun b => decide (b < a)) = 0 := by
        rw [List.countP_eq_zero]
        intro b hb
        simp only [decide_eq_true_eq]
        exact not_lt_of_gt (ha b hb)
      simp [h1]
    | succ k2 =>
      have hget : (a :: t).getD (k2 + 1) 0 = t.getD k2 0 := rfl
      have hk2 : k2 < t.length := Nat.lt_of_succ_lt_succ hk
      rw [hget, List.countP_cons]
      have hmem : t.getD k2 0 ∈ t := by
        rw [List.getD_eq_getElem t 0 hk2]
        exact List.getElem_mem hk2
      have hlt : a < t.getD k2 0 := ha _ hmem
      rw [ih k2 hk2 ht]
      simp only [decide_eq_true_eq]
      rw [if_pos hlt]

theorem countP_not_add_countP {α : Type} (p : α → Bool) (l : List α) :
    l.countP (fun a => !(p a)) + l.countP p = l.length := by
  induction l with
  | nil => rfl
  | cons a t ih =>
    rw [List.countP_cons, List.countP_cons]
    cases h : p a <;> simp [h] <;> omega

/-! ### Claim C4: forced eviction is a quantile selection over expiry times -/

theorem foldl_unsafeDelete_entries {T : Type} (keys : List String) (s : Shard T) :
    (keys.foldl (fun t k => t.unsafeDelete k) s).entries =
      keys.foldl (fun m k => merase m k) s.entries := by
  induction keys generalizing s with
  | nil => rfl
  | cons a rest ih =>
    rw [List.foldl_cons, List.foldl_cons, ih, unsafeDelete_entries_eq]

theorem foldl_merase_eq_filter {V : Type} (keys : List String)
    (m : List (String × V)) :
    keys.foldl (fun t k => merase t k) m =
      m.filter (fun p => !(decide (p.1 ∈ keys))) := by
  induction keys generalizing m with
  | nil => simp
  | cons a rest ih =>
    rw [List.foldl_cons, ih, merase_eq_filter, List.filter_filter]
    apply List.filter_congr
    intro p hp
    by_cases h1 : p.1 = a <;> by_cases h2 : p.1 ∈ rest <;>
      simp [h1, h2, List.mem_cons]

theorem eq_of_mem_nodup_fst {V : Type} (m : List (String × V))
    (hnd : (m.map Prod.fst).Nodup) (p r : String × V)
    (hp : p ∈ m) (hr : r ∈ m) (hfst : p.1 = r.1) : p = r := by
  induction m with
  | nil => cases hp
  | cons x rest ih =>
    have hnd2 : (x.1 :: rest.map Prod.fst).Nodup := hnd
    rcases List.pairwise_cons.mp hnd2 with ⟨hx, hrest⟩
    rcases List.mem_cons.mp hp with hpx | hp2 <;>
      rcases List.mem_cons.mp hr with hrx | hr2
    · rw [hpx, hrx]
    · exfalso
      exact hx r.1 (List.mem_map.mpr ⟨r, hr2, rfl⟩) (hpx ▸ hfst)
    · exfalso
      exact hx p.1 (List.mem_map.mpr ⟨p, hp2, rfl⟩) (hrx ▸ hfst.symm)
    · exact ih hrest hp2 hr2

theorem key_mem_filter_map_iff {V : Type} (m : List (String × V))
    (hnd : (m.map Prod.fst).Nodup) (f : String × V → Bool) (p : String × V)
    (hp : p ∈ m) :
    (p.1 ∈ (m.filter f).map Prod.fst) ↔ f p = true := by
  constructor
  · intro h
    obtain ⟨r, hr, hr1⟩ := List.mem_map.mp h
    have hrm : r ∈ m := List.mem_of_mem_filter hr
    have hre : r = p := eq_of_mem_nodup_fst m hnd r p hrm hp hr1
    exact hre ▸ List.of_mem_filter hr
  · intro h
    exact List.mem_map.mpr ⟨p, List.mem_filter.mpr ⟨hp, h⟩, rfl⟩

theorem forceEvict_entries {T : Type} (s : Shard T)
    (hnd : (s.entries.map Prod.fst).Nodup) :
    s.forceEvict.entries = s.entries.filter (fun p =>
      !(decide (p.2.expiresAt <
        FindCutoff (s.entries.map (fun r => r.2.expiresAt))
          s.evictionPercentage))) := by
  unfold Shard.forceEvict
  rw [foldl_unsafeDelete_entries, foldl_merase_eq_filter]
  apply List.filter_congr
  intro p hp
  have hiff := key_mem_filter_map_iff s.entries hnd
    (fun r => decide (r.2.expiresAt <
      FindCutoff (s.entries.map (fun r => r.2.expiresAt)) s.evictionPercentage))
    p hp
  by_cases h : p.2.expiresAt <
      FindCutoff (s.entries.map (fun r => r.2.expiresAt)) s.evictionPercentage
  · have hmem : p.1 ∈ (s.entries.filter (fun r => decide (r.2.expiresAt <
        FindCutoff (s.entries.map (fun r => r.2.expiresAt))
          s.evictionPercentage))).map Prod.fst :=
      hiff.mpr (decide_eq_true h)
    simp [hmem, h]
  · have hnot : ¬ p.1 ∈ (s.entries.filter (fun r => decide (r.2.expiresAt <
        FindCutoff (s.entries.map (fun r => r.2.expiresAt))
          s.evictionPercentage))).map Prod.fst := by
      intro hm
      exact h (of_decide_eq_true (hiff.mp hm))
    simp [hnot, h]

/-- C4.  `forceEvict` deletes exactly the entries whose `expiresAt` lies
    strictly before the cutoff `FindCutoff(times, evictionPercentage)`
    (first conjunct); consequently every evicted entry expires strictly
    earlier than every retained entry (second conjunct); and when the
    expiration times are pairwise distinct the number of evicted entries is
    `min(⌊evictionPercentage·n/100⌋, n−1)` — approximately
    `evictionPercentage` percent of the shard (third conjunct).
    `FindCutoff` is modelled from the spec (its source is not part of the
    given files). -/
theorem c4_forceEvict_quantile {T : Type} (s : Shard T)
    (hnd : (s.entries.map Prod.fst).Nodup) :
    (s.forceEvict.entries = s.entries.filter (fun p =>
      !(decide (p.2.expiresAt <
        FindCutoff (s.entries.map (fun r => r.2.expiresAt))
          s.evictionPercentage)))) ∧
    (∀ p ∈ s.entries,
      p.2.expiresAt <
        FindCutoff (s.entries.map (fun r => r.2.expiresAt))
          s.evictionPercentage →
      ∀ q ∈ s.forceEvict.entries, p.2.expiresAt < q.2.expiresAt) ∧
    ((s.entries.map (fun r => r.2.expiresAt)).Nodup → 0 < s.entries.length →
      s.entries.length - s.forceEvict.entries.length =
        min ((s.evictionPercentage * (s.entries.length : Int) / 100).toNat)
          (s.entries.length - 1)) := by
  have hent := forceEvict_entries s hnd
  refine ⟨hent, ?_, ?_⟩
  · intro p hp hlt q hq
    rw [hent] at hq
    have hkeep := List.of_mem_filter hq
    have : ¬ q.2.expiresAt <
        FindCutoff (s.entries.map (fun r => r.2.expiresAt))
          s.evictionPercentage := by
      intro habs
      rw [decide_eq_true habs] at hkeep
      cases hkeep
    exact lt_of_lt_of_le hlt (le_of_not_lt this)
  · intro hnt hlen
    rw [hent, ← List.countP_eq_length_filter]
    have hsum := countP_not_add_countP (fun p => decide (p.2.expiresAt <
      FindCutoff (s.entries.map (fun r => r.2.expiresAt))
        s.evictionPercentage)) s.entries
    have hmatch : s.entries.countP (fun p => decide (p.2.expiresAt <
        FindCutoff (s.entries.map (fun r => r.2.expiresAt))
          s.evictionPercentage)) =
        min ((s.evictionPercentage * (s.entries.length : Int) / 100).toNat)
          (s.entries.length - 1) := by
      have hmap : s.entries.countP (fun p => decide (p.2.expiresAt <
          FindCutoff (s.entries.map (fun r => r.2.expiresAt))
            s.evictionPercentage)) =
          (s.entries.map (fun r => r.2.expiresAt)).countP (fun t => decide (t <
            FindCutoff (s.entries.map (fun r => r.2.expiresAt))
              s.evictionPercentage)) := by
        rw [List.countP_map]
        rfl
      rw [hmap]
      have hperm := sortTimes_perm (s.entries.map (fun r => r.2.expiresAt))
      rw [← hperm.countP_eq]
      have hlen2 : (s.entries.map (fun r => r.2.expiresAt)).length =
          s.entries.length := List.length_map _ _
      have hlen3 : (sortTimes (s.entries.map (fun r => r.2.expiresAt))).length =
          s.entries.length := hperm.length_eq.trans hlen2
      have hcut : FindCutoff (s.entries.map (fun r => r.2.expiresAt))
          s.evictionPercentage =
          (sortTimes (s.entries.map (fun r => r.2.expiresAt))).getD
            (min ((s.evictionPercentage * (s.entries.length : Int) / 100).toNat)
              (s.entries.length - 1)) 0 := by
        unfold FindCutoff
        rw [if_neg (by rw [hlen2]; omega)]
        rw [hlen2]
      rw [hcut]
      apply countP_lt_getD_of_pairwise_lt
      · rw [hlen3]
        omega
      · exact sortTimes_pairwise_lt _ hnt
    omega

/-- Entry expiring at 10 (C4 witness). -/
def entryC4a : Entry Int :=
  { key := "e1"
    value := 1
    expiresAt := 10
    refreshAt := 0
    numOfRefreshRetries := 0
    isMissingRecord := false }

/-- Entry expiring at 20 (C4 witness). -/
def entryC4b : Entry Int :=
  { key := "e2"
    value := 2
    expiresAt := 20
    refreshAt := 0
    numOfRefreshRetries := 0
    isMissingRecord := false }

/-- Two-entry shard with `evictionPercentage = 50` (C4 witness). -/
def shardC4 : Shard Int :=
  { capacity := 2
    ttl := 100
    entries := [("e1", entryC4a), ("e2", entryC4b)]
    entryKeysByAlias := []
    aliasesByEntryKey := []
    evictionPercentage := 50
    refreshInBackground := false
    minRefreshTime := 0
    maxRefreshTime := 0
    retryBaseDelay := 0 }

/-- Witness for C4 on a concrete two-entry shard: 50% eviction removes
    exactly the entry with the soonest expiry. -/
theorem c4_witness :
    (Shard.forceEvict shardC4).entries = shardC4.entries.filter (fun p =>
      !(decide (p.2.expiresAt <
        FindCutoff (shardC4.entries.map (fun r => r.2.expiresAt))
          shardC4.evictionPercentage))) ∧
    (∀ p ∈ shardC4.entries,
      p.2.expiresAt <
        FindCutoff (shardC4.entries.map (fun r => r.2.expiresAt))
          shardC4.evictionPercentage →
      ∀ q ∈ (Shard.forceEvict shardC4).entries, p.2.expiresAt < q.2.expiresAt) ∧
    shardC4.entries.length - (Shard.forceEvict shardC4).entries.length =
      min ((shardC4.evictionPercentage * (shardC4.entries.length : Int) / 100).toNat)
        (shardC4.entries.length - 1) := by
  obtain ⟨h1, h2, h3⟩ := c4_forceEvict_quantile shardC4 (by decide)
  exact ⟨h1, h2, h3 (by decide) (by decide)⟩

/-! ### Claim C8: `set` is idempotent -/

theorem set_ok_post {T : Type} (s : Shard T) (key : String) (value : T) (m : Bool)
    (aliases : List String) (now pad : Int) (s1 : Shard T) (b : Bool)
    (hsync : AliasSync s)
    (hcap : ¬ (s.evictionPercentage < 1 ∧ s.capacity ≤ s.entries.length))
    (hset : s.set key value m aliases now pad = Except.ok (s1, b)) :
    (∃ e, mfind s1.entries key = some e ∧ e.value = value ∧
      e.isMissingRecord = m ∧ e.key = key) ∧
    (∀ a, mfind s1.entryKeysByAlias a = some key ↔ a ∈ aliases) ∧
    mfind s1.aliasesByEntryKey key = some aliases ∧
    AliasSync s1 ∧
    keyCount s1.entries key = 1 := by
  rw [set_eq_upsert s key value m aliases now pad hcap] at hset
  have hsync2 : AliasSync (if s.capacity ≤ s.entries.length then s.forceEvict
      else s) := by
    by_cases hev : s.capacity ≤ s.entries.length
    · rw [if_pos hev]
      exact aliasSync_forceEvict s hsync
    · rw [if_neg hev]
      exact hsync
  revert hset
  generalize (if s.capacity ≤ s.entries.length then s.forceEvict else s) = s2 at hsync2
  intro hset
  cases hup : s2.unsafeUpsert (mkSetEntry s2 key value m now pad) key aliases with
  | error e =>
    rw [hup] at hset
    cases hset
  | ok s3 =>
    rw [hup] at hset
    simp only [Except.map] at hset
    injection hset with hpair
    have hs1 : s1 = s3 := (congrArg Prod.fst hpair).symm
    obtain ⟨hconf, hs3⟩ := conflictFree_of_unsafeUpsert_ok s2
      (mkSetEntry s2 key value m now pad) key aliases s3 hup
    subst hs1
    subst hs3
    have hsyncDel : AliasSync (if (mfind s2.entries key).isSome = true then
        s2.unsafeDelete key else s2) := by
      by_cases hd : (mfind s2.entries key).isSome = true
      · rw [if_pos hd]
        exact aliasSync_unsafeDelete s2 key hsync2
      · rw [if_neg hd]
        exact hsync2
    have hnokey : ∀ a, ¬ mfind (if (mfind s2.entries key).isSome = true then
        s2.unsafeDelete key else s2).entryKeysByAlias a = some key := by
      intro a hfa2
      by_cases hd : (mfind s2.entries key).isSome = true
      · rw [if_pos hd] at hfa2
        obtain ⟨e0, he0⟩ := Option.isSome_iff_exists.mp hd
        obtain ⟨hc1, hc2, hc3⟩ := unsafeDelete_components s2 key e0 he0
        rw [hc2, mfind_foldl_merase] at hfa2
        split at hfa2
        · cases hfa2
        · rename_i hal
          exact hal (hsync2.1 a key hfa2)
      · rw [if_neg hd] at hfa2
        exact hd (hsync2.2 a key hfa2)
    refine ⟨?_, ?_, ?_, ?_, ?_⟩
    · refine ⟨mkSetEntry s2 key value m now pad, ?_, rfl, rfl, rfl⟩
      rw [upsertResult_mfind_entries, if_pos rfl]
    · intro a
      rw [upsertResult_mfind_alias]
      by_cases ha : a ∈ aliases
      · simp [ha]
      · rw [if_neg ha]
        constructor
        · intro hfa2
          exact absurd hfa2 (hnokey a)
        · intro ha2
          exact absurd ha2 ha
    · rw [upsertResult_mfind_aliasList, if_pos rfl]
    · constructor
      · intro a k hfa2
        rw [upsertResult_mfind_alias] at hfa2
        by_cases ha : a ∈ aliases
        · rw [if_pos ha] at hfa2
          injection hfa2 with hk
          subst hk
          rw [upsertResult_mfind_aliasList, if_pos rfl]
          exact ha
        · rw [if_neg ha] at hfa2
          have hkk : ¬ key = k :=
            fun h => hnokey a (hfa2.trans (show some k = some key by rw [h]))
          rw [upsertResult_mfind_aliasList, if_neg hkk]
          exact hsyncDel.1 a k hfa2
      · intro a k hfa2
        rw [upsertResult_mfind_alias] at hfa2
        rw [upsertResult_mfind_entries]
        by_cases ha : a ∈ aliases
        · rw [if_pos ha] at hfa2
          injection hfa2 with hk
          rw [if_pos hk]
          rfl
        · rw [if_neg ha] at hfa2
          have hkk : ¬ key = k :=
            fun h => hnokey a (hfa2.trans (show some k = some key by rw [h]))
          rw [if_neg hkk]
          have hlive := hsyncDel.2 a k hfa2
          by_cases hd : (mfind s2.entries key).isSome = true
          · rw [if_pos hd, unsafeDelete_mfind_entries] at hlive
            rw [if_neg (fun h : k = key => hkk h.symm)] at hlive
            exact hlive
          · rw [if_neg hd] at hlive
            exact hlive
    · have hredE : (upsertResult s2 (mkSetEntry s2 key value m now pad) key
          aliases).entries =
          minsert (if (mfind s2.entries key).isSome = true then
            s2.unsafeDelete key else s2).entries key
            (mkSetEntry s2 key value m now pad) := rfl
      rw [hredE, keyCount_minsert_self]

/-- C8 (amended).  Starting from a shard whose alias maps are consistent and
    which is not saturated with eviction disabled, calling `set` twice with
    identical `(key, value, isMissingRecord, aliases)` arguments leaves
    exactly one entry under `key`, exactly the supplied aliases bound to
    `key` in `entryKeysByAlias`, and `aliasesByEntryKey[key]` equal to the
    supplied alias list. -/
theorem c8_set_idempotent {T : Type} (s0 : Shard T) (key : String) (value : T)
    (m : Bool) (aliases : List String) (now pad now2 pad2 : Int)
    (s1 s2 : Shard T) (b1 b2 : Bool)
    (hsync : AliasSync s0)
    (hcap : ¬ (s0.evictionPercentage < 1 ∧ s0.capacity ≤ s0.entries.length))
    (h1 : s0.set key value m aliases now pad = Except.ok (s1, b1))
    (h2 : s1.set key value m aliases now2 pad2 = Except.ok (s2, b2)) :
    keyCount s2.entries key = 1 ∧
    (∀ a, mfind s2.entryKeysByAlias a = some key ↔ a ∈ aliases) ∧
    mfind s2.aliasesByEntryKey key = some aliases ∧
    (∃ e, mfind s2.entries key = some e ∧ e.value = value ∧
      e.isMissingRecord = m) := by
  obtain ⟨q1, q2, q3, q4, q5⟩ :=
    set_ok_post s0 key value m aliases now pad s1 b1 hsync hcap h1
  by_cases hrej : s1.evictionPercentage < 1 ∧ s1.capacity ≤ s1.entries.length
  · rw [set_saturated_eq s1 key value m aliases now2 pad2 hrej.2 hrej.1] at h2
    injection h2 with hp
    have hs : s2 = s1 := (congrArg Prod.fst hp).symm
    subst hs
    exact ⟨q5, q2, q3, q1.imp (fun e he => ⟨he.1, he.2.1, he.2.2.1⟩)⟩
  · obtain ⟨r1, r2, r3, r4, r5⟩ :=
      set_ok_post s1 key value m aliases now2 pad2 s2 b2 q4 hrej h2
    exact ⟨r5, r2, r3, r1.imp (fun e he => ⟨he.1, he.2.1, he.2.2.1⟩)⟩

/-- C8 counterexample.  `shardC5` is at capacity (1 entry, capacity 1) with
    `evictionPercentage = 0`, so `set "k" 5 false ["a"]` returns
    `Except.ok (shardC5, false)` without changing anything; calling it a
    second time is the very same call on the very same state.  Afterwards
    the shard holds no entry under "k" and no alias "a" bound to "k",
    contradicting the claimed idempotence postcondition. -/
theorem c8_counterexample :
    Shard.set shardC5 "k" (5 : Int) false ["a"] 0 0 = Except.ok (shardC5, false) ∧
    mfind shardC5.entries "k" = none ∧
    ¬ mfind shardC5.entryKeysByAlias "a" = some "k" ∧
    ¬ mfind shardC5.aliasesByEntryKey "k" = some ["a"] :=
  ⟨rfl, rfl, by decide, by decide⟩

/-- Empty capacity-2 shard for the C8 witness. -/
def shardC8 : Shard Int :=
  { capacity := 2
    ttl := 100
    entries := []
    entryKeysByAlias := []
    aliasesByEntryKey := []
    evictionPercentage := 0
    refreshInBackground := false
    minRefreshTime := 0
    maxRefreshTime := 0
    retryBaseDelay := 0 }

/-- `shardC8` after the first `set "k" 5 false ["a"]`. -/
def shardC8b : Shard Int :=
  upsertResult shardC8 (mkSetEntry shardC8 "k" 5 false 0 0) "k" ["a"]

/-- `shardC8b` after the second `set "k" 5 false ["a"]`. -/
def shardC8c : Shard Int :=
  upsertResult shardC8b (mkSetEntry shardC8b "k" 5 false 1 0) "k" ["a"]

/-- Witness for C8 on a concrete shard. -/
theorem c8_witness :
    keyCount shardC8c.entries "k" = 1 ∧
    (∀ a, mfind shardC8c.entryKeysByAlias a = some "k" ↔ a ∈ ["a"]) ∧
    mfind shardC8c.aliasesByEntryKey "k" = some ["a"] ∧
    (∃ e, mfind shardC8c.entries "k" = some e ∧ e.value = (5 : Int) ∧
      e.isMissingRecord = false) :=
  c8_set_idempotent shardC8 "k" 5 false ["a"] 0 0 1 0 shardC8b shardC8c false false
    (aliasSync_of_chk _ (by decide)) (by decide) rfl rfl
